import Mathlib

/-!
Verification development for the `db_clean_tool` repository: a batched,
relation-aware data-retention engine for PostgreSQL.

The Python sources under `src/db_cleaner/` are shallowly embedded here:

* pure string/config helpers (`utils.py`, `relations.py`) become plain Lean
  functions on `String` / `List`;
* the database connection is abstracted as an `Oracle`: one field per distinct
  SQL query shape issued by the code, returning `Except Err _` because every
  driver call can raise `psycopg2.Error` (catalog/metadata lookups are modelled
  as pure environment functions);
* the stateful cascade walker (`cleaner.cascade_delete`) becomes a
  fuel-indexed, trace-producing function: it returns `none` when the fuel is
  exhausted, `some (WRes.fail tr)` when a database error was raised after
  issuing the events `tr`, and `some (WRes.ok tr st)` on normal return;
* the per-batch body of `cleaner.clean_table` (the `try:` block with commit,
  archival and rollback) becomes `clean_batch`, and the surrounding loop
  becomes `clean_loop` / `clean_table`;
* database values are modelled as `Nat`, row tuples as `List Nat`, timestamps
  as whole-day integers (the `.replace(hour=0, ...)` midnight truncation is
  the identity on whole days).
-/

namespace DbClean

/-- Database error marker (`psycopg2.Error` / generic exceptions). -/
abbrev Err := String

/-- A database value; rows and key tuples are lists of values. -/
abbrev Val := Nat

/-- A row / key tuple, as returned by `cur.fetchall()`. -/
abbrev Tup := List Val

/-- An opaque configured predicate (`conditions` entries are passed through to
SQL untouched by the walker). -/
abbrev Cond := String

/-! ### utils.py -/

/-- `utils.qualify_table`: unqualified names (no `"."` in them) default to
schema `public`. -/
def qualify_table (name : String) : String :=
  if name.data.contains '.' then name else "public." ++ name

/-- Split a character list at the first `'.'`, if any. -/
def splitOnceDot : List Char → Option (List Char × List Char)
  | [] => none
  | c :: cs =>
    if c = '.' then some ([], cs)
    else
      match splitOnceDot cs with
      | some p => some (c :: p.1, p.2)
      | none => none

/-- `utils.split_schema_table`: split on the first dot only
(`qualified.split(".", 1)`); names with no dot get schema `public`. -/
def split_schema_table (qualified : String) : String × String :=
  match splitOnceDot qualified.data with
  | some p => (⟨p.1⟩, ⟨p.2⟩)
  | none => ("public", qualified)

/-- `utils._shorten` with its default `max_len=2000` (the only way it is
called): texts longer than 2000 characters become the first 2000 characters
followed by `"..."`. -/
def shorten (text : String) : String :=
  if text.length > 2000 then String.mk (text.data.take 2000 ++ "...".data) else text

/-- The character class `[A-Za-z0-9_]` of the cast-normalisation regex. -/
def isWordChar (c : Char) : Bool :=
  ('a' ≤ c && c ≤ 'z') || ('A' ≤ c && c ≤ 'Z') || ('0' ≤ c && c ≤ '9') || c = '_'

/-- The `\s` class of the cast-normalisation regex (ASCII whitespace). -/
def isSpaceChar (c : Char) : Bool :=
  c = ' ' || c = '\t' || c = '\n' || c = '\r' || c = '\x0b' || c = '\x0c'

/-- Final part of a regex match attempt: the literal `::` plus the captured
name `w` again (`\1` is not anchored, so word characters may follow it). -/
def tryMatchTail (w : List Char) (spLen : Nat) : List Char → Option (List Char × Nat)
  | d1 :: d2 :: tail =>
    if d1 = ':' ∧ d2 = ':' ∧ tail.take w.length = w then
      some (w, 2 + w.length + spLen + 2 + w.length)
    else none
  | _ => none

/-- After the leading `::` of a match attempt: the greedy capture
`([A-Za-z0-9_]+)` is forced to be the maximal word run (any shorter capture
is followed by a word character, which neither `\s*` nor `:` can consume, so
no backtracking arises), then `\s*`, then the tail. -/
def tryMatchAt (rest : List Char) : Option (List Char × Nat) :=
  let w := rest.takeWhile isWordChar
  if w = [] then none
  else
    let afterRun := rest.drop w.length
    let spLen := (afterRun.takeWhile isSpaceChar).length
    tryMatchTail w spLen (afterRun.drop spLen)

/-- One attempted match of the regex `::([A-Za-z0-9_]+)\s*::\1` at the head of
the character list; returns the captured type name and the total number of
characters matched. -/
def tryMatch (l : List Char) : Option (List Char × Nat) :=
  match l with
  | c1 :: c2 :: rest => if c1 = ':' ∧ c2 = ':' then tryMatchAt rest else none
  | _ => none

/-- Left-to-right, non-overlapping replacement of `::T\s*::T` by `::T`
(`re.sub` semantics), with explicit fuel for structural recursion; every
successful match consumes at least one character, so fuel equal to the length
of the input suffices. -/
def normCastsGo : Nat → List Char → List Char
  | 0, l => l
  | fuel + 1, l =>
    match tryMatch l with
    | some (w, n) => ':' :: ':' :: (w ++ normCastsGo fuel (l.drop n))
    | none =>
      match l with
      | [] => []
      | c :: cs => c :: normCastsGo fuel cs

/-- `_normalize_casts` at the character-list level. -/
def normCastsList (l : List Char) : List Char :=
  normCastsGo l.length l

/-- `utils._normalize_casts`: `re.sub(r"::([A-Za-z0-9_]+)\s*::\1", r"::\1", text)`. -/
def normalize_casts (text : String) : String :=
  ⟨normCastsList text.data⟩

/-- The error-log rendering pipeline of `sql_render.ErrorLoggingCursorParam`:
`_render_sql_with_params` ends with `_normalize_casts`, and the emitted
message is `_shorten(full_sql)`. -/
def render_for_log (text : String) : String :=
  shorten (normalize_casts text)

/-! ### relations.py: data model -/

/-- Column mapping of a relation edge (`mapping` dict). -/
structure Mapping where
  parent_columns : List String
  child_columns : List String
deriving DecidableEq, Repr

/-- A relation edge, as the dicts produced by `normalize_manual_relations`
and `auto_find_fk_relations`.  `delete_action` is `some c` for auto-discovered
edges (the `confdeltype` letter; `'c'` means ON DELETE CASCADE) and `none`
for manual edges. -/
structure Rel where
  name : String
  parent_table : String
  mapping : Mapping
  conditions : List Cond
  delete_action : Option Char
  constraint_name : Option String
deriving DecidableEq, Repr

/-- The canonical dedup key `(parent_table, name, child_columns, parent_columns)`
used by `union_relations` and `ensure_auto_children`. -/
def relKey (r : Rel) : String × String × List String × List String :=
  (r.parent_table, r.name, r.mapping.child_columns, r.mapping.parent_columns)

/-- The relation graph `relations_graph`: an insertion-ordered dict from a
parent qualified name to its outgoing edges. -/
abbrev Graph := List (String × List Rel)

/-- `relations_graph.get(t, [])`. -/
def graphGet (g : Graph) (t : String) : List Rel :=
  match g.find? (fun p => p.1 == t) with
  | some p => p.2
  | none => []

/-- Replace (or insert, as `dict.setdefault` does) the edge list of `t`. -/
def graphSet (g : Graph) (t : String) (rels : List Rel) : Graph :=
  if g.any (fun p => p.1 == t) then
    g.map (fun p => if p.1 == t then (t, rels) else p)
  else g ++ [(t, rels)]

/-- All edges present in the whole graph, as a flat list. -/
def graphRels (g : Graph) : List Rel :=
  g.flatMap (fun p => p.2)

/-- Edge identity used for cycle detection in the walker:
`(current_table, child_table, tuple(parent_cols), tuple(child_cols))`. -/
abbrev EdgeKey := String × String × List String × List String

/-- The `edge_key` formed in `cascade_delete` for edge `r` out of `table`. -/
def edge_key_of (table : String) (r : Rel) : EdgeKey :=
  (table, r.name, r.mapping.parent_columns, r.mapping.child_columns)

/-- All cycle-detection edge keys of a graph. -/
def graphEdgeKeys (g : Graph) : List EdgeKey :=
  g.flatMap (fun p => p.2.map (edge_key_of p.1))

/-! ### The database oracle -/

/-- The database, abstracted: one field per distinct query shape issued by the
code.  Data queries return `Except Err _` because any of them can raise
`psycopg2.Error`; catalog lookups (`pk_cols`, `fk_catalog`) are modelled as a
pure environment.  `fk_catalog parent` is the raw result of the
`pg_constraint` introspection of `auto_find_fk_relations` before the CASCADE
filter, already shaped into `Rel` records with `delete_action` set. -/
structure Oracle where
  pk_cols : String → List String
  fk_catalog : String → List Rel
  child_pks : String → Mapping → List Tup → List Cond → Except Err (List Tup)
  count_child : String → Mapping → List Tup → List Cond → Except Err Nat
  fetch_needed : String → List String → List Tup → List String → Except Err (List Tup)
  count_parent : String → List String → List Tup → Except Err Nat
  del_parent : String → List String → List Tup → Except Err Nat
  arch_rows : String → List String → List Tup → Except Err (List Tup)
  fetch_batch_res : Nat → Except Err (List Tup)
  set_timeout : Nat → Except Err Unit
  set_timeout_fb : Nat → Except Err Unit
  commit_res : Nat → Except Err Unit

/-! ### relations.py: operations -/

/-- `relations.auto_find_fk_relations`: every foreign key referencing
`parent`, skipping `ON DELETE CASCADE` edges when `exclude_cascade` is true. -/
def auto_find_fk_relations (o : Oracle) (parent : String) (exclude_cascade : Bool) :
    List Rel :=
  (o.fk_catalog parent).filter
    (fun r => !(exclude_cascade && r.delete_action == some 'c'))

/-- A manual relation entry from the `related:` configuration.  A missing
`mapping` key, or a missing column list, collapses to `[]` exactly as the
`or []` fallbacks in the source do; a missing or empty `parent_table`
defaults to the cleaned table. -/
structure ManualRel where
  name : String
  parent_table : Option String
  parent_columns : List String
  child_columns : List String
  conditions : List Cond
deriving DecidableEq, Repr

/-- Whether `normalize_manual_relations` raises `ValueError` on this entry. -/
def badMapping (r : ManualRel) : Bool :=
  r.child_columns.isEmpty || r.parent_columns.isEmpty ||
    r.child_columns.length != r.parent_columns.length

/-- `relations.normalize_manual_relations`: qualify the child and parent
names (the parent defaulting to the cleaned table) and validate that both
column lists are nonempty and of equal length, raising `ValueError`
(modelled as `Except.error`) otherwise. -/
def normalize_manual_relations (manual : List ManualRel) (main_table : String) :
    Except Err (List Rel) :=
  match manual with
  | [] => .ok []
  | r :: rest =>
    if badMapping r then .error ("Invalid mapping in relation " ++ r.name)
    else
      match normalize_manual_relations rest main_table with
      | .error e => .error e
      | .ok out =>
        .ok (⟨qualify_table r.name,
              qualify_table (match r.parent_table with
                             | some s => if s = "" then main_table else s
                             | none => main_table),
              ⟨r.parent_columns, r.child_columns⟩,
              r.conditions, none, none⟩ :: out)

/-- Whether `filter_relations` drops the edge `r`: the child's qualified or
short name is in the (both-forms-normalised) skip set, or one of its child
columns is skipped. -/
def relSkipped (r : Rel) (skip_tables skip_columns : List String) : Bool :=
  let norm := skip_tables ++ skip_tables.map qualify_table
  let child_short := ((r.name.splitOn ".").getLastD r.name)
  norm.contains r.name || norm.contains child_short ||
    r.mapping.child_columns.any (fun c => skip_columns.contains c)

/-- `relations.filter_relations`. -/
def filter_relations (relations : List Rel) (skip_tables skip_columns : List String) :
    List Rel :=
  relations.filter (fun r => !relSkipped r skip_tables skip_columns)

/-- Deduplication scan of `union_relations`, keeping first occurrences. -/
def dedupRels (seen : List (String × String × List String × List String)) :
    List Rel → List Rel
  | [] => []
  | r :: rest =>
    if seen.contains (relKey r) then dedupRels seen rest
    else r :: dedupRels (relKey r :: seen) rest

/-- `relations.union_relations`: manual edges first, then auto edges,
deduplicated by `relKey` (manual wins on ties). -/
def union_relations (manual auto : List Rel) : List Rel :=
  dedupRels [] (manual ++ auto)

/-- The append loop of `ensure_auto_children`: add each new edge whose key is
unseen to the end of the existing list, recording its key. -/
def dedupAppend (existing : List Rel)
    (keys : List (String × String × List String × List String)) :
    List Rel → List Rel
  | [] => existing
  | r :: rest =>
    if keys.contains (relKey r) then dedupAppend existing keys rest
    else dedupAppend (existing ++ [r]) (relKey r :: keys) rest

/-- `relations.ensure_auto_children`: run auto-discovery rooted at `table`,
filter it, and union any new edges into the graph entry of `table`. -/
def ensure_auto_children (o : Oracle) (g : Graph) (table : String)
    (skip_tables skip_columns : List String) (exclude_cascade : Bool) : Graph :=
  let autoRels := filter_relations (auto_find_fk_relations o table exclude_cascade)
    skip_tables skip_columns
  let existing := graphGet g table
  graphSet g table (dedupAppend existing (existing.map relKey) autoRels)

/-- `clean_table`'s graph construction:
`relations_graph.setdefault(r["parent_table"], []).append(r)` over the merged
edge list, preserving dict insertion order. -/
def build_graph (merged : List Rel) : Graph :=
  merged.foldl (fun g r => graphSet g r.parent_table (graphGet g r.parent_table ++ [r])) []

/-! ### cleaner.py: the cascade walker -/

/-- One database interaction of the walker, in issue order.  `del` is the
`DELETE FROM <table> WHERE (<key_columns>) IN (VALUES ...)` of
`delete_parent`; the warnings are the `[CYCLE]` and missing-parent-column
log lines. -/
inductive Ev where
  | countChild (child : String) (keys : List Tup)
  | selectChildPks (child : String) (keys : List Tup)
  | fetchNeeded (table : String) (needed : List String) (keys : List Tup)
  | countParent (table : String) (keys : List Tup)
  | archSelect (table : String) (keys : List Tup)
  | del (table : String) (keys : List Tup)
  | cycleWarn (parent child : String)
  | missingWarn (parent child : String)
deriving DecidableEq, Repr

/-- The mutable state threaded through `cascade_delete`: the (lazily
extended) relation graph, the `discovered_auto` set, the DFS `edge_path`,
`delete_totals`, and `archive_buffers`. -/
structure WState where
  graph : Graph
  discovered : List String
  edge_path : List EdgeKey
  totals : List (String × Nat)
  arch_bufs : List (String × List Tup)
deriving DecidableEq, Repr

/-- Outcome of a walker call: normal return with the issued events and final
state, or a raised database error after the issued events (`edge_path` is not
unwound past a raise, matching Python exception propagation). -/
inductive WRes where
  | ok : List Ev → WState → WRes
  | fail : List Ev → WRes
deriving DecidableEq, Repr

/-- The read-only arguments of `cascade_delete`: connection (oracle), mode
flags and skip rules.  Note there is no `exclude_cascade_fk` here — the
Python function does not receive it either. -/
structure WCfg where
  o : Oracle
  dry_run : Bool
  auto_discover : Bool
  archive : Bool
  skip_tables : List String
  skip_columns : List String

/-- Sequencing of walker steps: propagate fuel exhaustion and raised errors,
concatenate traces. -/
def obind (r : Option WRes) (k : WState → Option WRes) : Option WRes :=
  match r with
  | none => none
  | some (.fail tr) => some (.fail tr)
  | some (.ok tr st) =>
    match k st with
    | none => none
    | some (.fail tr2) => some (.fail (tr ++ tr2))
    | some (.ok tr2 st2) => some (.ok (tr ++ tr2) st2)

/-- Record an event in front of a walker outcome. -/
def prependEv (e : Ev) (r : Option WRes) : Option WRes :=
  match r with
  | none => none
  | some (.ok tr st) => some (.ok (e :: tr) st)
  | some (.fail tr) => some (.fail (e :: tr))

/-- `delete_totals[t] = delete_totals.get(t, 0) + n` on an insertion-ordered
dict. -/
def bump_total (ts : List (String × Nat)) (t : String) (n : Nat) :
    List (String × Nat) :=
  if ts.any (fun p => p.1 == t) then
    ts.map (fun p => if p.1 == t then (p.1, p.2 + n) else p)
  else ts ++ [(t, n)]

/-- `archive_buffers.setdefault(t, []).extend(rows)`. -/
def extend_buf (bs : List (String × List Tup)) (t : String) (rows : List Tup) :
    List (String × List Tup) :=
  if bs.any (fun p => p.1 == t) then
    bs.map (fun p => if p.1 == t then (p.1, p.2 ++ rows) else p)
  else bs ++ [(t, rows)]

/-- `set(parent_cols).issubset(set(current_key_columns))`. -/
def subset_cols (parentCols keyCols : List String) : Bool :=
  parentCols.all (fun c => keyCols.contains c)

/-- `idx = {col: i for i, col in enumerate(current_key_columns)}`: the last
occurrence wins, as in a Python dict comprehension; absent columns (never hit
under the subset guard) default to index 0. -/
def dict_index (cols : List String) (c : String) : Nat :=
  cols.enum.foldl (fun acc p => if p.2 == c then p.1 else acc) 0

/-- The in-memory key projection of `cascade_delete`:
`[tuple(pk[idx[c]] for c in parent_cols) for pk in parent_keys]`. -/
def project_parent_keys (keyCols parentCols : List String) (keys : List Tup) :
    List Tup :=
  keys.map (fun pk => parentCols.map (fun c => pk.getD (dict_index keyCols c) 0))

/-- The tail of `cascade_delete` (after the edge loop): in dry-run mode count
the current rows; in execute mode optionally snapshot them into the archive
buffers (`select_rows_for_archive` short-circuits on empty keys without
querying) and then issue the parent `DELETE`. -/
def finish_current (cfg : WCfg) (table : String) (keyCols : List String)
    (keys : List Tup) (st : WState) : Option WRes :=
  if cfg.dry_run then
    match cfg.o.count_parent table keyCols keys with
    | .error _ => some (.fail [Ev.countParent table keys])
    | .ok cnt =>
      some (.ok [Ev.countParent table keys]
        { st with totals := bump_total st.totals table cnt })
  else
    let delPart : WState → Option WRes := fun stx =>
      match cfg.o.del_parent table keyCols keys with
      | .error _ => some (.fail [Ev.del table keys])
      | .ok n =>
        some (.ok [Ev.del table keys]
          { stx with totals := bump_total stx.totals table n })
    if cfg.archive then
      if keys.isEmpty then delPart st
      else
        match cfg.o.arch_rows table keyCols keys with
        | .error _ => some (.fail [Ev.archSelect table keys])
        | .ok rows =>
          prependEv (Ev.archSelect table keys)
            (delPart (if rows.isEmpty then st
                      else { st with arch_bufs := extend_buf st.arch_bufs table rows }))
    else delPart st

/-- The selection-and-descent part of one edge of `cascade_delete` (lines
168-198), abstracted over the recursive descent `recurse` and the
continuation `kont` that processes the remaining edges: the child
primary-key `SELECT` (with the child's PK columns falling back to the
mapping's child columns), recursion into a nonempty child, and removal of
the edge key from `edge_path` on unwind. -/
def edge_after_keys (cfg : WCfg)
    (recurse : String → List String → List Tup → WState → Option WRes)
    (kont : WState → Option WRes) (rel : Rel) (ek : EdgeKey)
    (pkc : List Tup) (stx : WState) : Option WRes :=
  match cfg.o.child_pks rel.name rel.mapping pkc rel.conditions with
  | .error _ => some (.fail [Ev.selectChildPks rel.name pkc])
  | .ok childPks =>
    prependEv (Ev.selectChildPks rel.name pkc)
      (if childPks.isEmpty then
        kont { stx with edge_path := stx.edge_path.erase ek }
      else
        let childPkCols :=
          if (cfg.o.pk_cols rel.name).isEmpty then rel.mapping.child_columns
          else cfg.o.pk_cols rel.name
        obind (recurse rel.name childPkCols childPks stx)
          (fun st2 => kont { st2 with edge_path := st2.edge_path.erase ek }))

/-- One edge of `cascade_delete` after its matching keys `pkc` are known:
in dry-run mode first the child `COUNT(*)` (added to `delete_totals`), then
the selection and descent. -/
def edge_do (cfg : WCfg)
    (recurse : String → List String → List Tup → WState → Option WRes)
    (kont : WState → Option WRes) (rel : Rel) (ek : EdgeKey)
    (pkc : List Tup) (stx : WState) : Option WRes :=
  if cfg.dry_run then
    match cfg.o.count_child rel.name rel.mapping pkc rel.conditions with
    | .error _ => some (.fail [Ev.countChild rel.name pkc])
    | .ok cnt =>
      prependEv (Ev.countChild rel.name pkc)
        (edge_after_keys cfg recurse kont rel ek pkc
          { stx with totals := bump_total stx.totals rel.name cnt })
  else edge_after_keys cfg recurse kont rel ek pkc stx

/-- The `for rel in relations_graph.get(current_table, [])` loop of
`cascade_delete`, abstracted over the recursive descent `recurse` (so the
whole walker is structurally recursive).  For each edge: cycle check against
`edge_path`; key projection or the `fetch_needed_parent_keys` lookup (an
empty lookup result skips the edge with a warning); then `edge_do`. -/
def process_edges (cfg : WCfg)
    (recurse : String → List String → List Tup → WState → Option WRes)
    (table : String) (keyCols : List String) (keys : List Tup) :
    List Rel → WState → Option WRes
  | [], st => some (.ok [] st)
  | rel :: rest, st =>
    let ek : EdgeKey :=
      (table, rel.name, rel.mapping.parent_columns, rel.mapping.child_columns)
    if st.edge_path.contains ek then
      prependEv (Ev.cycleWarn table rel.name)
        (process_edges cfg recurse table keyCols keys rest st)
    else
      let st1 : WState := { st with edge_path := ek :: st.edge_path }
      if subset_cols rel.mapping.parent_columns keyCols then
        edge_do cfg recurse
          (fun stx => process_edges cfg recurse table keyCols keys rest stx)
          rel ek (project_parent_keys keyCols rel.mapping.parent_columns keys) st1
      else
        match cfg.o.fetch_needed table keyCols keys rel.mapping.parent_columns with
        | .error _ => some (.fail [Ev.fetchNeeded table rel.mapping.parent_columns keys])
        | .ok pkc =>
          if pkc.isEmpty then
            prependEv (Ev.fetchNeeded table rel.mapping.parent_columns keys)
              (prependEv (Ev.missingWarn table rel.name)
                (process_edges cfg recurse table keyCols keys rest
                  { st1 with edge_path := st1.edge_path.erase ek }))
          else
            prependEv (Ev.fetchNeeded table rel.mapping.parent_columns keys)
              (edge_do cfg recurse
                (fun stx => process_edges cfg recurse table keyCols keys rest stx)
                rel ek pkc st1)

/-- `cleaner.cascade_delete`, fuel-indexed (`none` means the fuel ran out;
the Python recursion has no such bound, and `cascade_delete_terminates` below
shows a sufficient fuel always exists).  First the lazy auto-discovery
extension (hardcoded `exclude_cascade=True`, as in the source), then the edge
loop, then the action on the current table. -/
def cascade_delete (cfg : WCfg) : Nat → String → List String → List Tup →
    WState → Option WRes
  | 0, _, _, _, _ => none
  | fuel + 1, table, keyCols, keys, st =>
    let st1 :=
      if cfg.auto_discover && !(st.discovered.contains table) then
        { st with
          graph := ensure_auto_children cfg.o st.graph table cfg.skip_tables
            cfg.skip_columns true,
          discovered := st.discovered ++ [table] }
      else st
    obind
      (process_edges cfg (cascade_delete cfg fuel) table keyCols keys
        (graphGet st1.graph table) st1)
      (fun st2 => finish_current cfg table keyCols keys st2)

/-! ### pg.py: the batch fetcher

`fetch_batch` composes a SQL query; we embed the composed query as an AST
(which clauses are present, mirroring lines 100-132 of `pg.py`) together with
the standard relational semantics of `WHERE` / `ORDER BY ... ASC` / `LIMIT`
for it.  A source row is a pair of its projected key tuple and its
`date_column` value (a whole-day integer). -/

/-- A row as seen by `fetch_batch`: the projected key columns and the value
of the `date_column`. -/
abbrev BRow := Tup × Int

/-- The query composed by `fetch_batch`. -/
structure BatchQuery where
  key_cols : List String
  table : String × String
  date_filter : Option (String × Int)
  conds : List Cond
  order_by : Option String
  limit : Nat
deriving DecidableEq, Repr

/-- `pg.fetch_batch`, query-construction part: the `date_column < cutoff`
filter and the `ORDER BY date_column ASC` clause are added exactly when
`cutoff` is not `None`; `LIMIT batch_size` is always added. -/
def fetch_batch_query (table : String) (key_columns : List String)
    (date_column : String) (cutoff : Option Int) (batch_size : Nat)
    (conditions : List Cond) : BatchQuery :=
  { key_cols := key_columns
    table := split_schema_table table
    date_filter := cutoff.map (fun c => (date_column, c))
    conds := conditions
    order_by := match cutoff with | some _ => some date_column | none => none
    limit := batch_size }

/-- Insert a row into a date-sorted list (ascending). -/
def insertByDate (r : BRow) : List BRow → List BRow
  | [] => [r]
  | x :: xs => if r.2 ≤ x.2 then r :: x :: xs else x :: insertByDate r xs

/-- The `ORDER BY <date_column> ASC` semantics: stable ascending sort on the
date value. -/
def sortByDate : List BRow → List BRow
  | [] => []
  | x :: xs => insertByDate x (sortByDate xs)

/-- Relational semantics of a `BatchQuery` over the source rows, before the
final projection: filter, optional ascending sort on the date, `LIMIT`.
`csem` interprets the opaque configured predicates. -/
def run_batch_rows (csem : Cond → BRow → Bool) (rows : List BRow)
    (q : BatchQuery) : List BRow :=
  let f1 : List BRow := match q.date_filter with
    | some pc => rows.filter (fun (r : BRow) => decide (r.2 < pc.2))
    | none => rows
  let f2 : List BRow := f1.filter (fun r => q.conds.all (fun cd => csem cd r))
  let s : List BRow := match q.order_by with
    | some _ => sortByDate f2
    | none => f2
  s.take q.limit

/-- `pg.fetch_batch`, result part: the key tuples of `run_batch_rows`. -/
def run_fetch_batch (csem : Cond → BRow → Bool) (rows : List BRow)
    (q : BatchQuery) : List Tup :=
  (run_batch_rows csem rows q).map (fun r => r.1)

/-! ### cleaner.py: clean_table -/

/-- The per-table retention configuration consumed by `clean_table`. -/
structure TableConf where
  name : String
  key_columns : List String
  date_column : String
  time_out : Nat
  enable : Bool
  expire_days : Int
  batch_size : Nat
  archive : Bool
  archive_path : Option String
  conditions : List Cond
  disable_cutoff : Bool
  related : List ManualRel
  auto_discover_related : Bool
  exclude_cascade_fk : Bool
deriving Repr

/-- The process environment read by `clean_table`: the `EXPIRY_DAYS` and
`ARCHIVE` variables and the current day (`datetime.now()` truncated to
midnight, as a day index). -/
structure Env where
  expiry_days : Option Int
  archive_var : Option String
  today : Int
deriving Repr

/-- Lines 274-279 of `cleaner.py`: `EXPIRY_DAYS` wins when set (even 0);
otherwise `int(conf["expire_days"]) or 45`, so a configured 0 falls back to
45 while any nonzero value (including negatives) is used as-is. -/
def compute_expire_days (env_expiry : Option Int) (conf_days : Int) : Int :=
  match env_expiry with
  | some v => v
  | none => if conf_days = 0 then 45 else conf_days

/-- `s.lower() in ('true', '1', 'yes', 'on')`. -/
def parse_bool_env (s : String) : Bool :=
  ["true", "1", "yes", "on"].contains s.toLower

/-- Lines 282-287: the `ARCHIVE` variable overrides `conf.archive`. -/
def resolve_archive (env_archive : Option String) (conf_archive : Bool) : Bool :=
  match env_archive with
  | some s => parse_bool_env s
  | none => conf_archive

/-- A batch-level event of `clean_table`: a walker event inside the
transaction, the batch `SELECT`, `SET statement_timeout`, `COMMIT`,
`ROLLBACK`, or an `archive_to_csv` file write.  Walker events are injected
through `wev`, so by construction the walker itself never commits, rolls
back, or writes a CSV — exactly as in the source, where those statements
appear only in `clean_table` and `archive.py`. -/
inductive BEv where
  | wev : Ev → BEv
  | fetchBatchEv : BatchQuery → Nat → BEv
  | setTimeout : Nat → BEv
  | commit : BEv
  | rollback : BEv
  | csvWrite : String → List Tup → BEv
deriving DecidableEq, Repr

/-- Lines 393-397: after the commit, write one CSV per buffered table.  The
whole block runs only under `if archive and archive_path and archive_buffers`
(`None` and `""` are falsy paths); `archive_to_csv` itself returns without
creating a file when its rows are empty. -/
def csv_events (archive : Bool) (archive_path : Option String)
    (bufs : List (String × List Tup)) : List BEv :=
  let truthyPath := match archive_path with
    | none => false
    | some s => !(s == "")
  if archive && truthyPath && !bufs.isEmpty then
    (bufs.filter (fun p => !p.2.isEmpty)).map (fun p => BEv.csvWrite p.1 p.2)
  else []

/-- Result of one execute-mode batch: the transaction committed (with the
possibly auto-extended graph, which persists into the next batch), or it was
rolled back (after which `clean_table` calls `sys.exit(1)`). -/
inductive BatchRes where
  | committed : List BEv → Graph → BatchRes
  | rolledBack : List BEv → BatchRes
deriving DecidableEq, Repr

/-- Lines 368-427 of `cleaner.py`, one execute-mode batch: run the walker on
fresh per-batch `edge_path` / totals / archive buffers; on success `COMMIT`
and only then flush the archive buffers to CSV; on a raised error (from the
walker or from the commit itself) `ROLLBACK`, discarding the buffers. -/
def clean_batch (o : Oracle) (autoD archive : Bool)
    (archive_path : Option String) (skipT skipC : List String)
    (walkerFuel i : Nat) (table : String) (keyCols : List String)
    (keys : List Tup) (g : Graph) : Option BatchRes :=
  match cascade_delete ⟨o, false, autoD, archive, skipT, skipC⟩ walkerFuel
      table keyCols keys ⟨g, [], [], [], []⟩ with
  | none => none
  | some (.fail tr) => some (.rolledBack (tr.map BEv.wev ++ [BEv.rollback]))
  | some (.ok tr st) =>
    match o.commit_res i with
    | .error _ => some (.rolledBack (tr.map BEv.wev ++ [BEv.rollback]))
    | .ok _ =>
      some (.committed
        (tr.map BEv.wev ++ BEv.commit :: csv_events archive archive_path st.arch_bufs)
        st.graph)

/-- How one run of `clean_table` ended. -/
inductive CleanOutcome where
  | skippedDisabled : CleanOutcome
  | skippedFilter : CleanOutcome
  | configError : Err → CleanOutcome
  | exited : List BEv → CleanOutcome
  | uncaught : List BEv → CleanOutcome
  | ran : List BEv → CleanOutcome
deriving DecidableEq, Repr

/-- The `while True` batch loop of `clean_table` (lines 318-429), fuel-indexed
over batches.  Each iteration: `fetch_batch` (outside the `try`, so an error
there propagates uncaught), the statement-timeout `SET` (also outside the
`try`; its `SET LOCAL` failure falls back to plain `SET`, and a second failure
propagates), then either the one-shot dry-run walk or an execute batch
followed by the next iteration. -/
def clean_loop (o : Oracle) (conf : TableConf) (table : String)
    (archive dry_run : Bool) (skipT skipC : List String)
    (cutoff : Option Int) (walkerFuel : Nat) :
    Nat → Nat → Graph → List BEv → Option CleanOutcome
  | _, 0, _, _ => none
  | i, loopFuel + 1, g, acc =>
    let q := fetch_batch_query table conf.key_columns conf.date_column cutoff
      conf.batch_size conf.conditions
    let acc1 := acc ++ [BEv.fetchBatchEv q i]
    match o.fetch_batch_res i with
    | .error _ => some (.uncaught acc1)
    | .ok [] => some (.ran acc1)
    | .ok keys =>
      let tRes : Except Err Unit :=
        if conf.time_out == 0 then .ok ()
        else
          match o.set_timeout i with
          | .ok _ => .ok ()
          | .error _ => o.set_timeout_fb i
      match tRes with
      | .error _ => some (.uncaught acc1)
      | .ok _ =>
        let acc2 := if conf.time_out == 0 then acc1 else acc1 ++ [BEv.setTimeout i]
        if dry_run then
          match cascade_delete
              ⟨o, true, conf.auto_discover_related, false, skipT, skipC⟩
              walkerFuel table conf.key_columns keys ⟨g, [], [], [], []⟩ with
          | none => none
          | some (.fail tr) => some (.uncaught (acc2 ++ tr.map BEv.wev))
          | some (.ok tr _) => some (.ran (acc2 ++ tr.map BEv.wev))
        else
          match clean_batch o conf.auto_discover_related archive
              conf.archive_path skipT skipC walkerFuel i table
              conf.key_columns keys g with
          | none => none
          | some (.rolledBack tr) => some (.exited (acc2 ++ tr))
          | some (.committed tr g2) =>
            clean_loop o conf table archive dry_run skipT skipC cutoff
              walkerFuel (i + 1) loopFuel g2 (acc2 ++ tr)

/-- `cleaner.clean_table` (lines 253-429): the disabled check, the skip check
(against the *configured* name verbatim and the date column), the
`EXPIRY_DAYS` / `ARCHIVE` environment overrides, manual-relation
normalisation (a `ValueError` there propagates before any database work),
relation-graph construction (initial auto-discovery honouring
`exclude_cascade_fk`), cutoff computation, and the batch loop. -/
def clean_table (o : Oracle) (env : Env) (conf : TableConf)
    (skip_tables skip_columns : List String) (dry_run : Bool)
    (walkerFuel loopFuel : Nat) : Option CleanOutcome :=
  let table := qualify_table conf.name
  if !conf.enable then some .skippedDisabled
  else if skip_tables.contains conf.name || skip_columns.contains conf.date_column then
    some .skippedFilter
  else
    match normalize_manual_relations conf.related table with
    | .error e => some (.configError e)
    | .ok manual0 =>
      let manual := filter_relations manual0 skip_tables skip_columns
      let autoRels :=
        if conf.auto_discover_related then
          filter_relations (auto_find_fk_relations o table conf.exclude_cascade_fk)
            skip_tables skip_columns
        else []
      let g := build_graph (union_relations manual autoRels)
      let expire := compute_expire_days env.expiry_days conf.expire_days
      let archive := resolve_archive env.archive_var conf.archive
      let cutoff : Option Int :=
        if conf.disable_cutoff then none else some (env.today - expire)
      clean_loop o conf table archive dry_run skip_tables skip_columns cutoff
        walkerFuel 0 loopFuel g []

/-! ## Supporting lemmas -/

theorem takeWhile_all_append (p : Char → Bool) (w : List Char) (c : Char)
    (t : List Char) (hw : ∀ x ∈ w, p x = true) (hc : p c = false) :
    (w ++ c :: t).takeWhile p = w := by
  induction w with
  | nil => simp [List.takeWhile_cons, hc]
  | cons a w ih =>
    have ha := hw a (by simp)
    simp only [List.cons_append, List.takeWhile_cons, ha, if_true]
    rw [ih (fun x hx => hw x (by simp [hx]))]

theorem tryMatchTail_pos {w : List Char} {sp : Nat} {l : List Char}
    {p : List Char × Nat} (h : tryMatchTail w sp l = some p) : 1 ≤ p.2 := by
  match l with
  | [] => simp [tryMatchTail] at h
  | [d] => simp [tryMatchTail] at h
  | d1 :: d2 :: tail =>
    simp only [tryMatchTail] at h
    split_ifs at h with h1
    cases h
    omega

theorem tryMatch_pos {l : List Char} {p : List Char × Nat}
    (h : tryMatch l = some p) : 1 ≤ p.2 := by
  match l with
  | [] => simp [tryMatch] at h
  | [c] => simp [tryMatch] at h
  | c1 :: c2 :: rest =>
    simp only [tryMatch, Option.ite_none_right_eq_some] at h
    obtain ⟨-, h⟩ := h
    simp only [tryMatchAt] at h
    split_ifs at h with h2
    exact tryMatchTail_pos h

theorem tryMatch_head (w s : List Char) (hne : w ≠ [])
    (hw : ∀ x ∈ w, isWordChar x = true) :
    tryMatch (':' :: ':' :: (w ++ ':' :: ':' :: (w ++ s)))
      = some (w, 2 * w.length + 4) := by
  have htw : (w ++ ':' :: ':' :: (w ++ s)).takeWhile isWordChar = w :=
    takeWhile_all_append isWordChar w ':' (':' :: (w ++ s)) hw (by decide)
  have hdr : (w ++ ':' :: ':' :: (w ++ s)).drop w.length = ':' :: ':' :: (w ++ s) :=
    List.drop_left w _
  have h1 : tryMatch (':' :: ':' :: (w ++ ':' :: ':' :: (w ++ s)))
      = tryMatchAt (w ++ ':' :: ':' :: (w ++ s)) := by
    simp [tryMatch]
  rw [h1]
  have hsp : (':' :: ':' :: (w ++ s)).takeWhile isSpaceChar = [] := by
    rw [List.takeWhile_cons]
    simp [show isSpaceChar ':' = false from by decide]
  show (let w2 := (w ++ ':' :: ':' :: (w ++ s)).takeWhile isWordChar
        if w2 = [] then none
        else
          let afterRun := (w ++ ':' :: ':' :: (w ++ s)).drop w2.length
          let spLen := (afterRun.takeWhile isSpaceChar).length
          tryMatchTail w2 spLen (afterRun.drop spLen)) = some (w, 2 * w.length + 4)
  simp only [htw, hdr, hsp, List.length_nil, List.drop_zero]
  rw [if_neg hne]
  rw [show tryMatchTail w 0 (':' :: ':' :: (w ++ s))
      = if (':' : Char) = ':' ∧ (':' : Char) = ':' ∧ (w ++ s).take w.length = w then
          some (w, 2 + w.length + 0 + 2 + w.length)
        else none from rfl]
  rw [if_pos ⟨rfl, rfl, List.take_left w s⟩]
  simp only [Option.some.injEq, Prod.mk.injEq, true_and]
  omega

theorem normCastsGo_of_le (f : Nat) : ∀ l : List Char, l.length ≤ f →
    normCastsGo f l = normCastsList l := by
  induction f using Nat.strong_induction_on with
  | _ f ih =>
    intro l hl
    match f, l with
    | f, [] => cases f <;> simp [normCastsGo, normCastsList, tryMatch]
    | 0, c :: cs => simp at hl
    | f + 1, c :: cs =>
      have hstep : normCastsList (c :: cs) = normCastsGo (cs.length + 1) (c :: cs) := rfl
      rw [hstep]
      cases htm : tryMatch (c :: cs) with
      | none =>
        simp only [normCastsGo, htm]
        rw [ih f (by omega) cs (by simpa using Nat.le_of_succ_le_succ hl)]
        rfl
      | some p =>
        obtain ⟨w, n⟩ := p
        have hn : 1 ≤ n := tryMatch_pos htm
        simp only [normCastsGo, htm]
        have hl1 : (c :: cs).length = cs.length + 1 := rfl
        have hdl : ((c :: cs).drop n).length ≤ f := by
          rw [List.length_drop, hl1]
          omega
        have hdl2 : ((c :: cs).drop n).length ≤ cs.length := by
          rw [List.length_drop, hl1]
          omega
        rw [ih f (by omega) _ hdl, ih cs.length (by omega) _ hdl2]

theorem normCastsList_collapse (w s : List Char) (hne : w ≠ [])
    (hw : ∀ x ∈ w, isWordChar x = true) :
    normCastsList (':' :: ':' :: (w ++ ':' :: ':' :: (w ++ s)))
      = ':' :: ':' :: (w ++ normCastsList s) := by
  have hP : ':' :: ':' :: (w ++ ':' :: ':' :: (w ++ s))
      = ([':', ':'] ++ w ++ [':', ':'] ++ w) ++ s := by
    simp [List.append_assoc]
  have hPl : ([':', ':'] ++ w ++ [':', ':'] ++ w).length = 2 * w.length + 4 := by
    simp [List.length_append]
    omega
  have hlen : (':' :: ':' :: (w ++ ':' :: ':' :: (w ++ s))).length
      = (2 * w.length + 3 + s.length) + 1 := by
    rw [hP, List.length_append, hPl]
    omega
  have htm := tryMatch_head w s hne hw
  have hdrop : (':' :: ':' :: (w ++ ':' :: ':' :: (w ++ s))).drop (2 * w.length + 4) = s := by
    rw [hP, ← hPl, List.drop_left]
  unfold normCastsList
  rw [hlen]
  simp only [normCastsGo, htm, hdrop]
  rw [normCastsGo_of_le _ s (by omega)]
  rfl

theorem shorten_length_le (s : String) : (shorten s).length ≤ 2003 := by
  unfold shorten
  split_ifs with h
  · show (String.mk _).length ≤ 2003
    show (s.data.take 2000 ++ "...".data).length ≤ 2003
    rw [List.length_append]
    have := List.length_take_le 2000 s.data
    simp only [show ("...".data).length = 3 from rfl]
    omega
  · show s.length ≤ 2003
    omega

/-! ## Claim C10 -/

/-- **C10.** When the `EXPIRY_DAYS` environment variable is unset and the
configured `expire_days` equals 0, `clean_table` computes the cutoff using 45
days instead of 0; any nonzero configured value is used as-is; a set
`EXPIRY_DAYS` always takes precedence, including the value 0. -/
theorem c10_expire_days_override :
    compute_expire_days none 0 = 45 ∧
    (∀ d : Int, d ≠ 0 → compute_expire_days none d = d) ∧
    (∀ v d : Int, compute_expire_days (some v) d = v) := by
  refine ⟨rfl, ?_, fun v d => rfl⟩
  intro d hd
  simp [compute_expire_days, hd]

/-- Witness for C10 at concrete inputs (`expire_days = 30`, `EXPIRY_DAYS=0`). -/
theorem c10_expire_days_override_witness :
    compute_expire_days none 30 = 30 ∧ compute_expire_days (some 0) 30 = 0 :=
  ⟨c10_expire_days_override.2.1 30 (by decide), c10_expire_days_override.2.2 0 30⟩

/-! ## Claim C8 -/

/-- **C8, counterexample.**  The claim says the emitted error-log message is
at most 2000 characters long, but `_shorten` appends `"..."` *after* taking
the first 2000 characters: a 2001-character SQL string renders to 2003
characters. -/
theorem tryMatch_none_of_no_colon {l : List Char}
    (h : ∀ c ∈ l, c ≠ ':') : tryMatch l = none := by
  match l with
  | [] => rfl
  | [c] => rfl
  | c1 :: c2 :: rest =>
    have : c1 ≠ ':' := h c1 (by simp)
    simp [tryMatch, this]

theorem normCastsGo_id_of_no_colon : ∀ (l : List Char), (∀ c ∈ l, c ≠ ':') →
    ∀ f, normCastsGo f l = l := by
  intro l
  induction l with
  | nil => intro _ f; cases f <;> rfl
  | cons c cs ih =>
    intro h f
    cases f with
    | zero => rfl
    | succ f =>
      rw [normCastsGo, tryMatch_none_of_no_colon h]
      rw [ih (fun x hx => h x (by simp [hx])) f]

theorem c8_counterexample :
    2000 < (render_for_log (String.mk (List.replicate 2001 'a'))).length ∧
    (render_for_log (String.mk (List.replicate 2001 'a'))).length = 2003 := by
  have hnc : normalize_casts (String.mk (List.replicate 2001 'a'))
      = String.mk (List.replicate 2001 'a') := by
    show String.mk (normCastsList (List.replicate 2001 'a')) = _
    rw [normCastsList, normCastsGo_id_of_no_colon]
    intro c hc
    rw [List.eq_of_mem_replicate hc]
    decide
  have hlen : (String.mk (List.replicate 2001 'a')).length = 2001 := by
    show (List.replicate 2001 'a').length = 2001
    rw [List.length_replicate]
  have hfull : (render_for_log (String.mk (List.replicate 2001 'a'))).length = 2003 := by
    unfold render_for_log
    rw [hnc]
    unfold shorten
    rw [hlen, if_pos (by omega)]
    show ((String.mk (List.replicate 2001 'a')).data.take 2000 ++ "...".data).length = 2003
    rw [List.length_append, List.length_take]
    rw [show ((String.mk (List.replicate 2001 'a')).data) = List.replicate 2001 'a' from rfl]
    rw [List.length_replicate]
    rw [show ("...".data).length = 3 from rfl]
    omega
  exact ⟨by omega, hfull⟩

/-- **C8, amended.**  The rendering pipeline collapses a duplicated cast
`::T::T` (same type name `T`) into a single `::T` (leftmost-match `re.sub`
semantics), and the emitted message is at most 2003 characters long (2000
plus the three-character ellipsis). -/
theorem c8_render_pipeline :
    (∀ w s : List Char, w ≠ [] → (∀ x ∈ w, isWordChar x = true) →
      normCastsList (':' :: ':' :: (w ++ ':' :: ':' :: (w ++ s)))
        = ':' :: ':' :: (w ++ normCastsList s)) ∧
    (∀ text : String, (render_for_log text).length ≤ 2003) :=
  ⟨normCastsList_collapse, fun text => shorten_length_le (normalize_casts text)⟩

/-- Witness for C8: `"x::uuid::uuid..."` collapses to `"x::uuid..."`. -/
theorem c8_render_pipeline_witness :
    normCastsList (':' :: ':' :: (['u', 'i', 'd'] ++ ':' :: ':' :: (['u', 'i', 'd'] ++ ['!'])))
      = ':' :: ':' :: (['u', 'i', 'd'] ++ normCastsList ['!']) :=
  c8_render_pipeline.1 ['u', 'i', 'd'] ['!'] (by decide) (by decide)

/-! ## Claim C7 -/

theorem nmr_error_iff (manual : List ManualRel) (main : String) :
    (∃ e, normalize_manual_relations manual main = .error e) ↔
      ∃ r ∈ manual, badMapping r = true := by
  induction manual with
  | nil => simp [normalize_manual_relations]
  | cons r rest ih =>
    by_cases hb : badMapping r = true
    · simp only [normalize_manual_relations, hb, if_true]
      exact ⟨fun _ => ⟨r, by simp, hb⟩, fun _ => ⟨_, rfl⟩⟩
    · simp only [normalize_manual_relations, hb, if_false]
      cases hres : normalize_manual_relations rest main with
      | error e =>
        simp only [Bool.not_eq_true] at hb
        constructor
        · intro _
          obtain ⟨r2, hr2, hbad⟩ := ih.mp ⟨e, hres⟩
          exact ⟨r2, by simp [hr2], hbad⟩
        · intro _
          exact ⟨e, rfl⟩
      | ok out =>
        simp only [Bool.not_eq_true] at hb
        constructor
        · intro ⟨e, he⟩
          exact absurd he (by simp)
        · intro ⟨r2, hr2, hbad⟩
          rcases List.mem_cons.mp hr2 with rfl | hr2
          · exact absurd hbad (by simp [hb])
          · obtain ⟨e, he⟩ := ih.mpr ⟨r2, hr2, hbad⟩
            rw [he] at hres
            exact absurd hres (by simp)

theorem nmr_ok_inv (manual : List ManualRel) (main : String)
    (out : List Rel) (h : normalize_manual_relations manual main = .ok out) :
    ∀ x ∈ out,
      x.mapping.parent_columns.length = x.mapping.child_columns.length ∧
      0 < x.mapping.parent_columns.length ∧
      ∃ m ∈ manual, x.name = qualify_table m.name ∧
        x.parent_table = qualify_table
          (match m.parent_table with
           | some s => if s = "" then main else s
           | none => main) := by
  induction manual generalizing out with
  | nil =>
    simp only [normalize_manual_relations, Except.ok.injEq] at h
    subst h
    simp
  | cons r rest ih =>
    cases hb : badMapping r with
    | true => simp [normalize_manual_relations, hb] at h
    | false =>
      simp only [normalize_manual_relations, hb, Bool.false_eq_true, if_false] at h
      cases hres : normalize_manual_relations rest main with
      | error e => rw [hres] at h; exact absurd h (by simp)
      | ok out2 =>
        rw [hres] at h
        simp only [Except.ok.injEq] at h
        subst h
        intro x hx
        rcases List.mem_cons.mp hx with rfl | hx2
        · have hbad : (r.child_columns.isEmpty ||
              r.parent_columns.isEmpty ||
              (r.child_columns.length != r.parent_columns.length)) = false := by
            simpa [badMapping] using hb
          simp only [Bool.or_eq_false_iff, List.isEmpty_eq_false,
            bne_eq_false_iff_eq] at hbad
          obtain ⟨⟨hcc, hpc⟩, hlen⟩ := hbad
          refine ⟨by simpa using hlen.symm, ?_, r, by simp, rfl, rfl⟩
          cases hp : r.parent_columns with
          | nil => exact absurd hp hpc
          | cons a t => simp [hp]
        · obtain ⟨h1, h2, m, hm, h3⟩ := ih out2 hres x hx2
          exact ⟨h1, h2, m, by simp [hm], h3⟩

/-- **C7.** `normalize_manual_relations` raises (`ConfigInvalid`) if and only
if some manual relation has an empty `parent_columns` or `child_columns`
list or lists of unequal length; every relation it returns has column lists
of equal positive length and both names qualified (schema defaulting to
`public`, parent table defaulting to the cleaned table); and when it raises,
`clean_table` aborts before any database work. -/
theorem c7_normalize_manual_relations :
    (∀ (manual : List ManualRel) (main : String),
      (∃ e, normalize_manual_relations manual main = .error e) ↔
        ∃ r ∈ manual, (r.child_columns = [] ∨ r.parent_columns = [] ∨
          r.child_columns.length ≠ r.parent_columns.length)) ∧
    (∀ (manual : List ManualRel) (main : String) (out : List Rel),
      normalize_manual_relations manual main = .ok out →
      ∀ x ∈ out,
        x.mapping.parent_columns.length = x.mapping.child_columns.length ∧
        0 < x.mapping.parent_columns.length ∧
        ∃ m ∈ manual, x.name = qualify_table m.name ∧
          x.parent_table = qualify_table
            (match m.parent_table with
             | some s => if s = "" then main else s
             | none => main)) ∧
    (∀ (o : Oracle) (env : Env) (conf : TableConf)
        (sT sC : List String) (dr : Bool) (wf lf : Nat) (e : Err),
      conf.enable = true →
      (sT.contains conf.name || sC.contains conf.date_column) = false →
      normalize_manual_relations conf.related (qualify_table conf.name) = .error e →
      clean_table o env conf sT sC dr wf lf = some (.configError e)) := by
  refine ⟨?_, nmr_ok_inv, ?_⟩
  · intro manual main
    rw [nmr_error_iff]
    constructor
    · intro ⟨r, hr, hbad⟩
      refine ⟨r, hr, ?_⟩
      simpa [badMapping, List.isEmpty_iff, Bool.or_eq_true, bne_eq_false_iff_eq,
        or_assoc] using hbad
    · intro ⟨r, hr, hbad⟩
      refine ⟨r, hr, ?_⟩
      simpa [badMapping, List.isEmpty_iff, Bool.or_eq_true, bne_eq_false_iff_eq,
        or_assoc] using hbad
  · intro o env conf sT sC dr wf lf e hen hskip herr
    rcases Bool.or_eq_false_iff.mp hskip with ⟨h1, h2⟩
    simp [clean_table, hen, herr, h1, h2]
    exact ⟨by simpa using h1, by simpa using h2⟩

/-- Witness for C7: a relation with mismatched column lengths is rejected,
and a well-formed one is normalised with `public.` qualification. -/
theorem c7_normalize_manual_relations_witness :
    ((∃ e, normalize_manual_relations
        [⟨"kids", none, ["a"], ["b", "c"], []⟩] "public.t" = .error e) ↔
      ∃ r ∈ [(⟨"kids", none, ["a"], ["b", "c"], []⟩ : ManualRel)],
        (r.child_columns = [] ∨ r.parent_columns = [] ∨
          r.child_columns.length ≠ r.parent_columns.length)) :=
  c7_normalize_manual_relations.1 [⟨"kids", none, ["a"], ["b", "c"], []⟩] "public.t"

/-! ## Claim C6 -/

theorem mem_insertByDate (r a : BRow) : ∀ l, a ∈ insertByDate r l ↔ a = r ∨ a ∈ l := by
  intro l
  induction l with
  | nil => simp [insertByDate]
  | cons x xs ih =>
    simp only [insertByDate]
    split_ifs with h
    · simp [List.mem_cons]
    · simp only [List.mem_cons, ih]
      tauto

theorem sorted_insertByDate (r : BRow) :
    ∀ l, List.Pairwise (fun a b : BRow => a.2 ≤ b.2) l →
      List.Pairwise (fun a b : BRow => a.2 ≤ b.2) (insertByDate r l) := by
  intro l
  induction l with
  | nil => intro _; simp [insertByDate]
  | cons x xs ih =>
    intro hp
    rcases List.pairwise_cons.mp hp with ⟨hx, hxs⟩
    simp only [insertByDate]
    split_ifs with h
    · refine List.pairwise_cons.mpr ⟨?_, hp⟩
      intro b hb
      rcases List.mem_cons.mp hb with rfl | hb2
      · exact h
      · exact le_trans h (hx b hb2)
    · refine List.pairwise_cons.mpr ⟨?_, ih hxs⟩
      intro b hb
      rcases (mem_insertByDate r b xs).mp hb with rfl | hb2
      · exact le_of_not_le h
      · exact hx b hb2

theorem sorted_sortByDate :
    ∀ l, List.Pairwise (fun a b : BRow => a.2 ≤ b.2) (sortByDate l) := by
  intro l
  induction l with
  | nil => simp [sortByDate]
  | cons x xs ih => exact sorted_insertByDate x (sortByDate xs) ih

theorem mem_sortByDate (a : BRow) : ∀ l, a ∈ sortByDate l ↔ a ∈ l := by
  intro l
  induction l with
  | nil => simp [sortByDate]
  | cons x xs ih =>
    simp only [sortByDate, mem_insertByDate, ih, List.mem_cons]

/-- **C6.** `fetch_batch` returns at most `batch_size` tuples; when `cutoff`
is present the composed query filters on `date_column < cutoff` and orders
ascending by `date_column` (so the returned rows are non-decreasing in it and
all strictly below the cutoff); when `cutoff` is `None` neither the date
filter nor the `ORDER BY` clause is present. -/
theorem c6_fetch_batch :
    (∀ (csem : Cond → BRow → Bool) (rows : List BRow) (table : String)
        (kc : List String) (dc : String) (cutoff : Option Int) (n : Nat)
        (conds : List Cond),
      (run_fetch_batch csem rows (fetch_batch_query table kc dc cutoff n conds)).length ≤ n) ∧
    (∀ (table : String) (kc : List String) (dc : String) (c : Int) (n : Nat)
        (conds : List Cond),
      (fetch_batch_query table kc dc (some c) n conds).order_by = some dc ∧
      (fetch_batch_query table kc dc (some c) n conds).date_filter = some (dc, c) ∧
      ∀ (csem : Cond → BRow → Bool) (rows : List BRow),
        List.Pairwise (fun a b : BRow => a.2 ≤ b.2)
          (run_batch_rows csem rows (fetch_batch_query table kc dc (some c) n conds)) ∧
        ∀ r ∈ run_batch_rows csem rows (fetch_batch_query table kc dc (some c) n conds),
          r.2 < c) ∧
    (∀ (table : String) (kc : List String) (dc : String) (n : Nat)
        (conds : List Cond),
      (fetch_batch_query table kc dc none n conds).order_by = none ∧
      (fetch_batch_query table kc dc none n conds).date_filter = none) := by
  refine ⟨?_, ?_, fun table kc dc n conds => ⟨rfl, rfl⟩⟩
  · intro csem rows table kc dc cutoff n conds
    show (List.map _ _).length ≤ n
    rw [List.length_map]
    exact List.length_take_le _ _
  · intro table kc dc c n conds
    refine ⟨rfl, rfl, ?_⟩
    intro csem rows
    constructor
    · show List.Pairwise _ (List.take n (sortByDate _))
      exact (sorted_sortByDate _).sublist (List.take_sublist n _)
    · intro r hr
      have hr2 : r ∈ sortByDate ((rows.filter
          (fun (x : BRow) => decide (x.2 < c))).filter
          (fun x => conds.all (fun cd => csem cd x))) := List.take_subset n _ hr
      have hr3 := (mem_sortByDate r _).mp hr2
      have hr4 := List.mem_of_mem_filter hr3
      have hr5 := List.of_mem_filter hr4
      exact of_decide_eq_true hr5

/-- Witness for C6 at a concrete table: a surviving row is strictly below the
cutoff. -/
theorem c6_fetch_batch_witness :
    (([5], (1 : Int)) : BRow).2 < 10 :=
  ((c6_fetch_batch.2.1 "public.t" ["id"] "d" 10 5 []).2.2 (fun _ _ => true)
    [([5], (1 : Int))]).2 ([5], (1 : Int)) (by decide)

/-! ## Concrete fixtures (shared by witnesses and counterexamples) -/

/-- A benign database: empty children, empty catalog, every statement
succeeds. -/
def o0 : Oracle :=
  { pk_cols := fun _ => ["id"]
    fk_catalog := fun _ => []
    child_pks := fun _ _ _ _ => .ok []
    count_child := fun _ _ _ _ => .ok 0
    fetch_needed := fun _ _ _ _ => .ok []
    count_parent := fun _ _ _ => .ok 0
    del_parent := fun _ _ _ => .ok 1
    arch_rows := fun _ _ _ => .ok []
    fetch_batch_res := fun _ => .ok []
    set_timeout := fun _ => .ok ()
    set_timeout_fb := fun _ => .ok ()
    commit_res := fun _ => .ok () }

/-- `public.parent → public.child` manual edge. -/
def relPC : Rel := ⟨"public.child", "public.parent", ⟨["id"], ["pid"]⟩, [], none, none⟩

/-- Self-loop edge `public.child → public.child`. -/
def relCC : Rel := ⟨"public.child", "public.child", ⟨["id"], ["ref"]⟩, [], none, none⟩

/-- A two-table graph with a self-loop on the child. -/
def g0 : Graph := [("public.parent", [relPC]), ("public.child", [relCC])]

/-- A database in which `public.child` always has one matching row. -/
def o1 : Oracle :=
  { o0 with child_pks := fun t _ pkc _ =>
      if t == "public.child" && !pkc.isEmpty then .ok [[7]] else .ok [] }

/-- Execute-mode walker configuration over `o1`. -/
def cfgExec : WCfg := ⟨o1, false, false, false, [], []⟩

/-- A database with one archivable row per parent table. -/
def oArch : Oracle := { o0 with arch_rows := fun _ _ _ => .ok [[9]] }

/-- Execute-mode walker configuration over the benign database `o0`. -/
def cfg0 : WCfg := ⟨o0, false, false, false, [], []⟩

/-! ## Inversion lemmas for the walker plumbing -/

theorem obind_ok {a : Option WRes} {k : WState → Option WRes} {tr : List Ev}
    {st2 : WState} (h : obind a k = some (.ok tr st2)) :
    ∃ tr1 stm tr2, a = some (.ok tr1 stm) ∧ k stm = some (.ok tr2 st2) ∧
      tr = tr1 ++ tr2 := by
  unfold obind at h
  cases a with
  | none => simp at h
  | some r =>
    cases r with
    | fail t => simp at h
    | ok t s =>
      dsimp only at h
      cases hk : k s with
      | none => rw [hk] at h; simp at h
      | some r2 =>
        rw [hk] at h
        cases r2 with
        | fail t2 => simp at h
        | ok t2 s2 =>
          simp only [Option.some.injEq, WRes.ok.injEq] at h
          exact ⟨t, s, t2, rfl, by rw [hk, h.2], h.1.symm⟩

theorem finish_current_exec_ok {cfg : WCfg} (hdry : cfg.dry_run = false)
    {table : String} {keyCols : List String} {keys : List Tup} {st : WState}
    {tr : List Ev} {st2 : WState}
    (h : finish_current cfg table keyCols keys st = some (.ok tr st2)) :
    ∃ pre, tr = pre ++ [Ev.del table keys] := by
  simp only [finish_current, hdry, Bool.false_eq_true, if_false] at h
  cases harch : cfg.archive with
  | false =>
    simp only [harch, Bool.false_eq_true, if_false] at h
    cases hdp : cfg.o.del_parent table keyCols keys with
    | error e => rw [hdp] at h; simp at h
    | ok n =>
      rw [hdp] at h
      simp only [Option.some.injEq, WRes.ok.injEq] at h
      exact ⟨[], by rw [← h.1]; rfl⟩
  | true =>
    simp only [harch, if_true] at h
    by_cases hke : keys.isEmpty = true
    · rw [if_pos hke] at h
      cases hdp : cfg.o.del_parent table keyCols keys with
      | error e => rw [hdp] at h; simp at h
      | ok n =>
        rw [hdp] at h
        simp only [Option.some.injEq, WRes.ok.injEq] at h
        exact ⟨[], by rw [← h.1]; rfl⟩
    · rw [if_neg hke] at h
      cases har : cfg.o.arch_rows table keyCols keys with
      | error e => rw [har] at h; simp at h
      | ok rows =>
        rw [har] at h
        cases hdp : cfg.o.del_parent table keyCols keys with
        | error e => rw [hdp] at h; simp [prependEv] at h
        | ok n =>
          rw [hdp] at h
          simp only [prependEv, Option.some.injEq, WRes.ok.injEq] at h
          exact ⟨[Ev.archSelect table keys], by rw [← h.1]; rfl⟩

/-! ## Claim C1 -/

/-- **C1.** In execute mode, for every relation graph and every non-empty
batch of parent keys, every `DELETE` issued during the edge loop (all child
and descendant deletes, and any archive selects) strictly precedes the
`DELETE` against the current table: the trace of a successful
`cascade_delete` call ends with exactly the current table's `DELETE`.
Applied to every recursive call, this is child-before-parent along every
branch. -/
theorem c1_child_before_parent :
    ∀ (cfg : WCfg) (fuel : Nat) (table : String) (keyCols : List String)
      (keys : List Tup) (st : WState) (tr : List Ev) (st2 : WState),
      cfg.dry_run = false → keys ≠ [] →
      cascade_delete cfg fuel table keyCols keys st = some (.ok tr st2) →
      ∃ pre, tr = pre ++ [Ev.del table keys] := by
  intro cfg fuel table keyCols keys st tr st2 hdry hne h
  cases fuel with
  | zero => simp [cascade_delete] at h
  | succ f =>
    simp only [cascade_delete] at h
    obtain ⟨tr1, stm, tr2, hp, hf, rfl⟩ := obind_ok h
    obtain ⟨p2, hp2⟩ := finish_current_exec_ok hdry hf
    exact ⟨tr1 ++ p2, by rw [hp2, List.append_assoc]⟩

/-- Witness for C1: the concrete run over `g0` (self-loop included) ends with
the parent `DELETE`, all child deletes before it. -/
theorem c1_child_before_parent_witness :
    ∃ pre,
      [Ev.selectChildPks "public.child" [[1], [2]],
       Ev.selectChildPks "public.child" [[7]],
       Ev.cycleWarn "public.child" "public.child",
       Ev.del "public.child" [[7]],
       Ev.del "public.child" [[7]],
       Ev.del "public.parent" [[1], [2]]]
        = pre ++ [Ev.del "public.parent" [[1], [2]]] :=
  c1_child_before_parent cfgExec 10 "public.parent" ["id"] [[1], [2]]
    ⟨g0, [], [], [], []⟩ _
    ⟨g0, [], [], [("public.child", 2), ("public.parent", 1)], []⟩
    rfl (by decide) (by decide)

/-! ## Claim C2 -/

/-- **C2.** Archive-iff-commit for one execute-mode batch of `clean_table`:
on rollback (a database error raised anywhere in the walker, or by the commit
itself) the batch trace contains no `COMMIT` and no CSV write and ends with
the `ROLLBACK`; `archive_to_csv` is never invoked before `conn.commit()`
returns (every CSV write sits strictly after the `COMMIT` in the trace); and
on commit the CSV writes are exactly the flush of the walker's in-memory
archive buffers. -/
theorem c2_archive_iff_commit :
    ∀ (o : Oracle) (autoD archive : Bool) (path : Option String)
      (skipT skipC : List String) (wf i : Nat) (table : String)
      (kc : List String) (keys : List Tup) (g : Graph),
      (∀ tr, clean_batch o autoD archive path skipT skipC wf i table kc keys g
          = some (.rolledBack tr) →
        (∀ t rows, BEv.csvWrite t rows ∉ tr) ∧ BEv.commit ∉ tr ∧
          ∃ pre, tr = pre ++ [BEv.rollback]) ∧
      (∀ tr g2, clean_batch o autoD archive path skipT skipC wf i table kc keys g
          = some (.committed tr g2) →
        ∃ tr0 st, cascade_delete ⟨o, false, autoD, archive, skipT, skipC⟩ wf
            table kc keys ⟨g, [], [], [], []⟩ = some (.ok tr0 st) ∧
          tr = tr0.map BEv.wev ++ BEv.commit :: csv_events archive path st.arch_bufs ∧
          (∀ t rows, BEv.csvWrite t rows ∉ tr0.map BEv.wev)) := by
  intro o autoD archive path skipT skipC wf i table kc keys g
  constructor
  · intro tr h
    unfold clean_batch at h
    cases hw : cascade_delete ⟨o, false, autoD, archive, skipT, skipC⟩ wf table
        kc keys ⟨g, [], [], [], []⟩ with
    | none => rw [hw] at h; simp at h
    | some r =>
      rw [hw] at h
      cases r with
      | fail tr0 =>
        simp only [Option.some.injEq, BatchRes.rolledBack.injEq] at h
        subst h
        refine ⟨by simp, by simp, tr0.map BEv.wev, rfl⟩
      | ok tr0 st =>
        cases hc : o.commit_res i with
        | error e =>
          rw [hc] at h
          simp only [Option.some.injEq, BatchRes.rolledBack.injEq] at h
          subst h
          refine ⟨by simp, by simp, tr0.map BEv.wev, rfl⟩
        | ok u => rw [hc] at h; simp at h
  · intro tr g2 h
    unfold clean_batch at h
    cases hw : cascade_delete ⟨o, false, autoD, archive, skipT, skipC⟩ wf table
        kc keys ⟨g, [], [], [], []⟩ with
    | none => rw [hw] at h; simp at h
    | some r =>
      rw [hw] at h
      cases r with
      | fail tr0 => simp at h
      | ok tr0 st =>
        cases hc : o.commit_res i with
        | error e => rw [hc] at h; simp at h
        | ok u =>
          rw [hc] at h
          simp only [Option.some.injEq, BatchRes.committed.injEq] at h
          exact ⟨tr0, st, rfl, h.1.symm, by simp⟩

/-- Witness for C2: a committed batch with archiving enabled writes its CSV
strictly after the commit. -/
theorem c2_archive_iff_commit_witness :
    ∃ tr0 st, cascade_delete ⟨oArch, false, false, true, [], []⟩ 10
        "public.t" ["id"] [[1]] ⟨[], [], [], [], []⟩ = some (.ok tr0 st) ∧
      [BEv.wev (Ev.archSelect "public.t" [[1]]), BEv.wev (Ev.del "public.t" [[1]]),
       BEv.commit, BEv.csvWrite "public.t" [[9]]]
        = tr0.map BEv.wev ++ BEv.commit :: csv_events true (some "arch") st.arch_bufs ∧
      (∀ t rows, BEv.csvWrite t rows ∉ tr0.map BEv.wev) :=
  (c2_archive_iff_commit oArch false true (some "arch") [] [] 10 0 "public.t"
    ["id"] [[1]] []).2 _ [] (by decide)

/-! ## Claim C5 -/

/-- **C5.** Key projection per edge: when `parent_columns ⊆
current_key_columns`, `cascade_delete` computes the child-matching keys by
pure in-memory projection (components at the positions of `parent_columns`,
in `parent_columns` order) and issues no extra lookup — the only query is the
child `SELECT`, and the keys it carries are exactly the projection.
Otherwise it issues exactly one extra `SELECT` (`fetch_needed_parent_keys`)
for the edge; if that lookup returns no rows, the edge is skipped with a
warning and no child queries are issued for it. -/
theorem c5_key_projection :
    ∀ (cfg : WCfg) (fuel : Nat) (table : String) (keyCols : List String)
      (keys : List Tup) (rel : Rel) (st : WState),
      cfg.dry_run = false →
      st.edge_path.contains
        (table, rel.name, rel.mapping.parent_columns, rel.mapping.child_columns) = false →
      ((subset_cols rel.mapping.parent_columns keyCols = true →
        cfg.o.child_pks rel.name rel.mapping
            (project_parent_keys keyCols rel.mapping.parent_columns keys)
            rel.conditions = .ok [] →
        process_edges cfg (cascade_delete cfg fuel) table keyCols keys [rel] st
          = some (.ok [Ev.selectChildPks rel.name
              (project_parent_keys keyCols rel.mapping.parent_columns keys)] st)) ∧
      (∀ pkc, subset_cols rel.mapping.parent_columns keyCols = false →
        cfg.o.fetch_needed table keyCols keys rel.mapping.parent_columns = .ok pkc →
        pkc ≠ [] →
        cfg.o.child_pks rel.name rel.mapping pkc rel.conditions = .ok [] →
        process_edges cfg (cascade_delete cfg fuel) table keyCols keys [rel] st
          = some (.ok [Ev.fetchNeeded table rel.mapping.parent_columns keys,
              Ev.selectChildPks rel.name pkc] st)) ∧
      (subset_cols rel.mapping.parent_columns keyCols = false →
        cfg.o.fetch_needed table keyCols keys rel.mapping.parent_columns = .ok [] →
        process_edges cfg (cascade_delete cfg fuel) table keyCols keys [rel] st
          = some (.ok [Ev.fetchNeeded table rel.mapping.parent_columns keys,
              Ev.missingWarn table rel.name] st))) := by
  intro cfg fuel table keyCols keys rel st hdry hpath
  refine ⟨?_, ?_, ?_⟩
  · intro hsub hcp
    simp only [process_edges, edge_do, edge_after_keys, hpath, Bool.false_eq_true,
      if_false, hsub, if_true, hdry, hcp, List.isEmpty_nil, List.erase_cons_head,
      prependEv]
  · intro pkc hsub hfn hne hcp
    have hne2 : pkc.isEmpty = false := List.isEmpty_eq_false.mpr hne
    simp only [process_edges, edge_do, edge_after_keys, hpath, Bool.false_eq_true,
      if_false, hsub, hfn, hdry, hcp, prependEv, hne2, List.isEmpty_nil,
      List.erase_cons_head]
    rfl
  · intro hsub hfn
    simp only [process_edges, edge_do, edge_after_keys, hpath, Bool.false_eq_true,
      if_false, hsub, hfn, hdry, prependEv, List.isEmpty_nil, List.erase_cons_head]
    rfl

/-- Witness for C5: the composite-key fast path projects `[[1], [2]]` through
`["id"] ⊆ ["id"]` and issues only the child `SELECT`. -/
theorem c5_key_projection_witness :
    process_edges cfg0 (cascade_delete cfg0 5) "public.parent" ["id"]
      [[1], [2]] [relPC] ⟨g0, [], [], [], []⟩
      = some (.ok [Ev.selectChildPks "public.child"
          (project_parent_keys ["id"] ["id"] [[1], [2]])] ⟨g0, [], [], [], []⟩) :=
  (c5_key_projection cfg0 5 "public.parent" ["id"] [[1], [2]] relPC
    ⟨g0, [], [], [], []⟩ rfl (by decide)).1 (by decide) rfl

/-! ## Claim C9 -/

/-- Every edge of `g` is an original edge of `g0` or is not an ON DELETE
CASCADE edge. -/
def GInv (g0 g : Graph) : Prop :=
  ∀ r ∈ graphRels g, r ∈ graphRels g0 ∨ r.delete_action ≠ some 'c'

theorem GInv_refl (g : Graph) : GInv g g := fun _r hr => Or.inl hr

theorem GInv_trans {a b c : Graph} (h1 : GInv a b) (h2 : GInv b c) : GInv a c := by
  intro r hr
  rcases h2 r hr with h | h
  · exact h1 r h
  · exact Or.inr h

theorem mem_dedupAppend {r : Rel} :
    ∀ (l : List Rel) (ex : List Rel) (ks : List (String × String × List String × List String)),
      r ∈ dedupAppend ex ks l → r ∈ ex ∨ r ∈ l := by
  intro l
  induction l with
  | nil => intro ex ks h; exact Or.inl h
  | cons x xs ih =>
    intro ex ks h
    simp only [dedupAppend] at h
    split_ifs at h with hk
    · rcases ih ex ks h with h2 | h2
      · exact Or.inl h2
      · exact Or.inr (by simp [h2])
    · rcases ih (ex ++ [x]) (relKey x :: ks) h with h2 | h2
      · rcases List.mem_append.mp h2 with h3 | h3
        · exact Or.inl h3
        · exact Or.inr (by simp at h3; simp [h3])
      · exact Or.inr (by simp [h2])

theorem mem_graphRels_graphSet {r : Rel} {g : Graph} {t : String} {rels : List Rel}
    (h : r ∈ graphRels (graphSet g t rels)) : r ∈ rels ∨ r ∈ graphRels g := by
  unfold graphSet at h
  split_ifs at h with hany
  · unfold graphRels at h
    rcases List.mem_flatMap.mp h with ⟨p, hp, hrp⟩
    rcases List.mem_map.mp hp with ⟨q, hq, hpq⟩
    by_cases hqt : q.1 == t
    · rw [if_pos hqt] at hpq
      subst hpq
      exact Or.inl hrp
    · rw [if_neg hqt] at hpq
      subst hpq
      exact Or.inr (List.mem_flatMap.mpr ⟨q, hq, hrp⟩)
  · unfold graphRels at h
    rcases List.mem_flatMap.mp h with ⟨p, hp, hrp⟩
    rcases List.mem_append.mp hp with h2 | h2
    · exact Or.inr (List.mem_flatMap.mpr ⟨p, h2, hrp⟩)
    · simp at h2
      subst h2
      exact Or.inl hrp

theorem mem_graphRels_of_graphGet {r : Rel} {g : Graph} {t : String}
    (h : r ∈ graphGet g t) : r ∈ graphRels g := by
  unfold graphGet at h
  cases hf : g.find? (fun p => p.1 == t) with
  | none => rw [hf] at h; simp at h
  | some p =>
    rw [hf] at h
    exact List.mem_flatMap.mpr ⟨p, List.mem_of_find?_eq_some hf, h⟩

theorem ensure_auto_children_inv (o : Oracle) (g : Graph) (t : String)
    (sT sC : List String) : GInv g (ensure_auto_children o g t sT sC true) := by
  intro r hr
  unfold ensure_auto_children at hr
  rcases mem_graphRels_graphSet hr with h | h
  · rcases mem_dedupAppend _ _ _ h with h2 | h2
    · exact Or.inl (mem_graphRels_of_graphGet h2)
    · unfold filter_relations at h2
      have h3 := List.mem_of_mem_filter h2
      unfold auto_find_fk_relations at h3
      have h4 := List.of_mem_filter h3
      right
      simp only [Bool.true_and, Bool.not_eq_true'] at h4
      intro hc
      rw [hc] at h4
      simp at h4
  · exact Or.inl h

theorem prependEv_ok {e : Ev} {x : Option WRes} {tr : List Ev} {st2 : WState}
    (h : prependEv e x = some (.ok tr st2)) :
    ∃ tr2, x = some (.ok tr2 st2) ∧ tr = e :: tr2 := by
  unfold prependEv at h
  cases x with
  | none => simp at h
  | some r =>
    cases r with
    | ok t s =>
      simp only [Option.some.injEq, WRes.ok.injEq] at h
      exact ⟨t, by rw [h.2], h.1.symm⟩
    | fail t => simp at h

theorem finish_current_graph {cfg : WCfg} {table : String}
    {keyCols : List String} {keys : List Tup} {st : WState} {tr : List Ev}
    {st2 : WState} (h : finish_current cfg table keyCols keys st = some (.ok tr st2)) :
    st2.graph = st.graph := by
  unfold finish_current at h
  split_ifs at h with hdry harch hke
  · cases hcp : cfg.o.count_parent table keyCols keys with
    | error e => rw [hcp] at h; simp at h
    | ok n =>
      rw [hcp] at h
      simp only [Option.some.injEq, WRes.ok.injEq] at h
      rw [← h.2]
  · cases hdp : cfg.o.del_parent table keyCols keys with
    | error e => rw [hdp] at h; simp at h
    | ok n =>
      rw [hdp] at h
      simp only [Option.some.injEq, WRes.ok.injEq] at h
      rw [← h.2]
  · cases har : cfg.o.arch_rows table keyCols keys with
    | error e => rw [har] at h; simp at h
    | ok rows =>
      rw [har] at h
      cases hdp : cfg.o.del_parent table keyCols keys with
      | error e => rw [hdp] at h; simp [prependEv] at h
      | ok n =>
        rw [hdp] at h
        simp only [prependEv, Option.some.injEq, WRes.ok.injEq] at h
        rw [← h.2]
        split_ifs <;> rfl
  · cases hdp : cfg.o.del_parent table keyCols keys with
    | error e => rw [hdp] at h; simp at h
    | ok n =>
      rw [hdp] at h
      simp only [Option.some.injEq, WRes.ok.injEq] at h
      rw [← h.2]

theorem edge_after_keys_graph_inv {cfg : WCfg} {recurse} {kont : WState → Option WRes}
    {rel : Rel} {ek : EdgeKey} {pkc : List Tup} {stx : WState} {tr : List Ev}
    {st2 : WState}
    (hrec : ∀ t kc ks (sa : WState) tra (sb : WState),
      recurse t kc ks sa = some (.ok tra sb) → GInv sa.graph sb.graph)
    (hkont : ∀ (sa : WState) tra (sb : WState),
      kont sa = some (.ok tra sb) → GInv sa.graph sb.graph)
    (h : edge_after_keys cfg recurse kont rel ek pkc stx = some (.ok tr st2)) :
    GInv stx.graph st2.graph := by
  unfold edge_after_keys at h
  cases hcp : cfg.o.child_pks rel.name rel.mapping pkc rel.conditions with
  | error e => rw [hcp] at h; simp at h
  | ok childPks =>
    rw [hcp] at h
    dsimp only at h
    obtain ⟨tr2, h2, -⟩ := prependEv_ok h
    by_cases he : childPks.isEmpty = true
    · rw [if_pos he] at h2
      exact hkont { stx with edge_path := stx.edge_path.erase ek } tr2 st2 h2
    · rw [if_neg he] at h2
      obtain ⟨tr1, stm, tr3, ha, hb, -⟩ := obind_ok h2
      exact GInv_trans (hrec _ _ _ _ _ _ ha)
        (hkont { stm with edge_path := stm.edge_path.erase ek } tr3 st2 hb)

theorem edge_do_graph_inv {cfg : WCfg} {recurse} {kont : WState → Option WRes}
    {rel : Rel} {ek : EdgeKey} {pkc : List Tup} {stx : WState} {tr : List Ev}
    {st2 : WState}
    (hrec : ∀ t kc ks (sa : WState) tra (sb : WState),
      recurse t kc ks sa = some (.ok tra sb) → GInv sa.graph sb.graph)
    (hkont : ∀ (sa : WState) tra (sb : WState),
      kont sa = some (.ok tra sb) → GInv sa.graph sb.graph)
    (h : edge_do cfg recurse kont rel ek pkc stx = some (.ok tr st2)) :
    GInv stx.graph st2.graph := by
  unfold edge_do at h
  split_ifs at h with hdry
  · cases hcc : cfg.o.count_child rel.name rel.mapping pkc rel.conditions with
    | error e => rw [hcc] at h; simp at h
    | ok cnt =>
      rw [hcc] at h
      dsimp only at h
      obtain ⟨tr2, h2, -⟩ := prependEv_ok h
      have hh := edge_after_keys_graph_inv hrec hkont h2
      exact hh
  · have hh := edge_after_keys_graph_inv hrec hkont h
    exact hh

theorem process_edges_graph_inv {cfg : WCfg} {recurse}
    (hrec : ∀ t kc ks (sa : WState) tra (sb : WState),
      recurse t kc ks sa = some (.ok tra sb) → GInv sa.graph sb.graph) :
    ∀ (rels : List Rel) (table : String) (keyCols : List String)
      (keys : List Tup) (st : WState) (tr : List Ev) (st2 : WState),
      process_edges cfg recurse table keyCols keys rels st = some (.ok tr st2) →
      GInv st.graph st2.graph := by
  intro rels
  induction rels with
  | nil =>
    intro table keyCols keys st tr st2 h
    simp only [process_edges, Option.some.injEq, WRes.ok.injEq] at h
    rw [← h.2]
    exact GInv_refl _
  | cons rel rest ih =>
    intro table keyCols keys st tr st2 h
    simp only [process_edges] at h
    split_ifs at h with hpath hsub
    · obtain ⟨tr2, h2, -⟩ := prependEv_ok h
      exact ih _ _ _ _ _ _ h2
    · have hh := edge_do_graph_inv hrec
        (fun sa tra sb hk => ih table keyCols keys sa tra sb hk) h
      exact hh
    · cases hfn : cfg.o.fetch_needed table keyCols keys rel.mapping.parent_columns with
      | error e => rw [hfn] at h; simp at h
      | ok pkc =>
        rw [hfn] at h
        dsimp only at h
        split_ifs at h with hpe
        · obtain ⟨tr2, h2, -⟩ := prependEv_ok h
          obtain ⟨tr3, h3, -⟩ := prependEv_ok h2
          have hh := ih table keyCols keys _ _ _ h3
          exact hh
        · obtain ⟨tr2, h2, -⟩ := prependEv_ok h
          have hh := edge_do_graph_inv hrec
            (fun sa tra sb hk => ih table keyCols keys sa tra sb hk) h2
          exact hh

theorem cascade_delete_graph_inv :
    ∀ (fuel : Nat) (cfg : WCfg) (table : String) (keyCols : List String)
      (keys : List Tup) (st : WState) (tr : List Ev) (st2 : WState),
      cascade_delete cfg fuel table keyCols keys st = some (.ok tr st2) →
      GInv st.graph st2.graph := by
  intro fuel
  induction fuel with
  | zero => intro cfg table keyCols keys st tr st2 h; simp [cascade_delete] at h
  | succ f ih =>
    intro cfg table keyCols keys st tr st2 h
    simp only [cascade_delete] at h
    obtain ⟨tr1, stm, tr2, hp, hf, -⟩ := obind_ok h
    have h1 : GInv st.graph
        (if cfg.auto_discover && !(st.discovered.contains table) then
          ({ st with
            graph := ensure_auto_children cfg.o st.graph table cfg.skip_tables
              cfg.skip_columns true,
            discovered := st.discovered ++ [table] } : WState)
        else st).graph := by
      split_ifs with hcond
      · exact ensure_auto_children_inv _ _ _ _ _
      · exact GInv_refl _
    have h2 := process_edges_graph_inv
      (fun t kc ks sa tra sb hk => ih cfg t kc ks sa tra sb hk) _ _ _ _ _ _ _ hp
    have h3 := finish_current_graph hf
    rw [h3]
    exact GInv_trans h1 h2

/-- **C9.** Lazy graph extension inside the walker always excludes
auto-discovered `ON DELETE CASCADE` edges — `cascade_delete` calls
`ensure_auto_children` with `exclude_cascade=True` hardcoded and receives no
`exclude_cascade_fk` at all — so after any successful walker run every graph
edge is either an original edge or a non-CASCADE one; only the initial
auto-discovery (`auto_find_fk_relations` called from `clean_table` with the
configured flag) honours `exclude_cascade_fk = false`, in which case it
returns the full catalog. -/
theorem c9_lazy_discovery_excludes_cascade :
    (∀ (o : Oracle) (t : String), auto_find_fk_relations o t false = o.fk_catalog t) ∧
    (∀ (fuel : Nat) (cfg : WCfg) (table : String) (keyCols : List String)
        (keys : List Tup) (st : WState) (tr : List Ev) (st2 : WState),
      cascade_delete cfg fuel table keyCols keys st = some (.ok tr st2) →
      ∀ r ∈ graphRels st2.graph,
        r ∈ graphRels st.graph ∨ r.delete_action ≠ some 'c') := by
  constructor
  · intro o t
    simp [auto_find_fk_relations]
  · intro fuel cfg table keyCols keys st tr st2 h
    exact cascade_delete_graph_inv fuel cfg table keyCols keys st tr st2 h

/-- An `ON DELETE CASCADE` foreign key next to a plain one, for the C9
witness. -/
def relAutoC : Rel :=
  ⟨"public.kidC", "public.parent", ⟨["id"], ["pid"]⟩, [], some 'c', some "fkc"⟩

/-- A NO ACTION foreign key on the same parent. -/
def relAutoN : Rel :=
  ⟨"public.kidN", "public.parent", ⟨["id"], ["pid"]⟩, [], some 'a', some "fkn"⟩

/-- A database whose catalog has one CASCADE and one NO ACTION child. -/
def oAuto : Oracle :=
  { o0 with fk_catalog := fun t =>
      if t == "public.parent" then [relAutoC, relAutoN] else [] }

/-- Auto-discovering execute-mode configuration over `oAuto`. -/
def cfgAuto : WCfg := ⟨oAuto, false, true, false, [], []⟩

/-- Witness for C9: after a run that lazily extends an empty graph over
`oAuto`, the NO ACTION edge it added satisfies the invariant. -/
theorem c9_lazy_discovery_excludes_cascade_witness :
    relAutoN ∈ graphRels ([] : Graph) ∨ relAutoN.delete_action ≠ some 'c' :=
  c9_lazy_discovery_excludes_cascade.2 5 cfgAuto "public.parent" ["id"] [[1]]
    ⟨[], [], [], [], []⟩
    [Ev.selectChildPks "public.kidN" [[1]], Ev.del "public.parent" [[1]]]
    ⟨[("public.parent", [relAutoN])], ["public.parent"], [], [("public.parent", 1)], []⟩
    (by decide) relAutoN (by decide)

/-! ## Claim C3 -/

/-- Number of graph edge keys not yet on the current DFS path. -/
def emeasure (g : Graph) (path : List EdgeKey) : Nat :=
  ((graphEdgeKeys g).toFinset \ path.toFinset).card

/-- The walker step `x` neither runs out of fuel nor loses the pre-call
`edge_path` and graph: it returns, and on normal return the `edge_path` is
`p` and the graph is `g`. -/
def OkRestores (x : Option WRes) (p : List EdgeKey) (g : Graph) : Prop :=
  (∃ r, x = some r) ∧
    ∀ tr st2, x = some (.ok tr st2) → st2.edge_path = p ∧ st2.graph = g

theorem OkRestores_fail {tr : List Ev} {p : List EdgeKey} {g : Graph} :
    OkRestores (some (.fail tr)) p g :=
  ⟨⟨_, rfl⟩, fun _ _ h => by simp at h⟩

theorem OkRestores_prependEv {e : Ev} {x : Option WRes} {p : List EdgeKey}
    {g : Graph} (h : OkRestores x p g) : OkRestores (prependEv e x) p g := by
  obtain ⟨⟨r, hr⟩, hres⟩ := h
  subst hr
  cases r with
  | ok t s =>
    refine ⟨⟨_, rfl⟩, ?_⟩
    intro tr st2 h2
    simp only [prependEv, Option.some.injEq, WRes.ok.injEq] at h2
    exact hres t st2 (by rw [h2.2])
  | fail t => exact ⟨⟨_, rfl⟩, fun _ _ h2 => by simp [prependEv] at h2⟩

theorem OkRestores_obind {a : Option WRes} {k : WState → Option WRes}
    {p1 p2 : List EdgeKey} {g : Graph} (ha : OkRestores a p1 g)
    (hk : ∀ stm : WState, stm.edge_path = p1 → stm.graph = g →
      OkRestores (k stm) p2 g) :
    OkRestores (obind a k) p2 g := by
  obtain ⟨⟨r, hr⟩, hres⟩ := ha
  subst hr
  cases r with
  | fail t => exact ⟨⟨_, rfl⟩, fun _ _ h2 => by simp [obind] at h2⟩
  | ok t s =>
    obtain ⟨hp, hg⟩ := hres t s rfl
    obtain ⟨⟨r2, hr2⟩, hres2⟩ := hk s hp hg
    cases r2 with
    | fail t2 =>
      have hob : obind (some (.ok t s)) k = some (.fail (t ++ t2)) := by
        unfold obind
        dsimp only
        rw [hr2]
      rw [hob]
      exact OkRestores_fail
    | ok t2 s2 =>
      have hob : obind (some (.ok t s)) k = some (.ok (t ++ t2) s2) := by
        unfold obind
        dsimp only
        rw [hr2]
      rw [hob]
      refine ⟨⟨_, rfl⟩, ?_⟩
      intro tr st2 h2
      simp only [Option.some.injEq, WRes.ok.injEq] at h2
      have h4 := hres2 t2 s2 hr2
      rw [← h2.2]
      exact h4

theorem graphGet_edge_keys {r : Rel} {g : Graph} {t : String}
    (h : r ∈ graphGet g t) : edge_key_of t r ∈ graphEdgeKeys g := by
  unfold graphGet at h
  cases hf : g.find? (fun p => p.1 == t) with
  | none => rw [hf] at h; simp at h
  | some p =>
    rw [hf] at h
    have hpt : p.1 = t := by
      have := List.find?_some hf
      simpa using this
    refine List.mem_flatMap.mpr ⟨p, List.mem_of_find?_eq_some hf, ?_⟩
    rw [hpt]
    exact List.mem_map.mpr ⟨r, h, rfl⟩

theorem emeasure_cons_lt {ek : EdgeKey} {g : Graph} {path : List EdgeKey}
    (hk : ek ∈ graphEdgeKeys g) (hp : ek ∉ path) :
    emeasure g (ek :: path) < emeasure g path := by
  unfold emeasure
  have hmem : ek ∈ (graphEdgeKeys g).toFinset \ path.toFinset := by
    rw [Finset.mem_sdiff]
    exact ⟨List.mem_toFinset.mpr hk, fun hc => hp (List.mem_toFinset.mp hc)⟩
  have hins : (ek :: path).toFinset = insert ek path.toFinset := List.toFinset_cons
  rw [hins, Finset.sdiff_insert]
  calc (((graphEdgeKeys g).toFinset \ path.toFinset).erase ek).card
      = ((graphEdgeKeys g).toFinset \ path.toFinset).card - 1 :=
        Finset.card_erase_of_mem hmem
    _ < ((graphEdgeKeys g).toFinset \ path.toFinset).card :=
        Nat.sub_lt (Finset.card_pos.mpr ⟨ek, hmem⟩) Nat.one_pos

theorem finish_current_restores (cfg : WCfg) (table : String)
    (keyCols : List String) (keys : List Tup) (st : WState) :
    OkRestores (finish_current cfg table keyCols keys st) st.edge_path st.graph := by
  unfold finish_current
  split_ifs with hdry harch hke
  · cases hcp : cfg.o.count_parent table keyCols keys with
    | error e => exact OkRestores_fail
    | ok n =>
      refine ⟨⟨_, rfl⟩, ?_⟩
      intro tr st2 h2
      simp only [Option.some.injEq, WRes.ok.injEq] at h2
      rw [← h2.2]
      exact ⟨rfl, rfl⟩
  · cases hdp : cfg.o.del_parent table keyCols keys with
    | error e => exact OkRestores_fail
    | ok n =>
      refine ⟨⟨_, rfl⟩, ?_⟩
      intro tr st2 h2
      simp only [Option.some.injEq, WRes.ok.injEq] at h2
      rw [← h2.2]
      exact ⟨rfl, rfl⟩
  · cases har : cfg.o.arch_rows table keyCols keys with
    | error e => exact OkRestores_fail
    | ok rows =>
      cases hdp : cfg.o.del_parent table keyCols keys with
      | error e =>
        refine ⟨⟨_, rfl⟩, ?_⟩
        intro tr st2 h2
        simp [prependEv] at h2
      | ok n =>
        refine ⟨⟨_, rfl⟩, ?_⟩
        intro tr st2 h2
        simp only [prependEv, Option.some.injEq, WRes.ok.injEq] at h2
        rw [← h2.2]
        split_ifs <;> exact ⟨rfl, rfl⟩
  · cases hdp : cfg.o.del_parent table keyCols keys with
    | error e => exact OkRestores_fail
    | ok n =>
      refine ⟨⟨_, rfl⟩, ?_⟩
      intro tr st2 h2
      simp only [Option.some.injEq, WRes.ok.injEq] at h2
      rw [← h2.2]
      exact ⟨rfl, rfl⟩

theorem edge_after_keys_restores {cfg : WCfg} {recurse} {kont : WState → Option WRes}
    {rel : Rel} {ek : EdgeKey} {pkc : List Tup} (basePath : List EdgeKey)
    (g : Graph) (F : Nat) (stx : WState)
    (hstx_path : stx.edge_path = ek :: basePath) (hstx_g : stx.graph = g)
    (hmeas : emeasure g (ek :: basePath) < F)
    (hrec : ∀ (t : String) (kc : List String) (ks : List Tup) (sa : WState),
      sa.graph = g → emeasure g sa.edge_path < F →
      OkRestores (recurse t kc ks sa) sa.edge_path g)
    (hkont : ∀ sa : WState, sa.graph = g → sa.edge_path = basePath →
      OkRestores (kont sa) basePath g) :
    OkRestores (edge_after_keys cfg recurse kont rel ek pkc stx) basePath g := by
  unfold edge_after_keys
  cases hcp : cfg.o.child_pks rel.name rel.mapping pkc rel.conditions with
  | error e => exact OkRestores_fail
  | ok childPks =>
    dsimp only
    apply OkRestores_prependEv
    by_cases he : childPks.isEmpty = true
    · rw [if_pos he]
      apply hkont
      · exact hstx_g
      · show stx.edge_path.erase ek = basePath
        rw [hstx_path, List.erase_cons_head]
    · rw [if_neg he]
      have hrec1 := hrec rel.name
        (if (cfg.o.pk_cols rel.name).isEmpty = true then rel.mapping.child_columns
         else cfg.o.pk_cols rel.name) childPks stx hstx_g
        (by rw [hstx_path]; exact hmeas)
      rw [hstx_path] at hrec1
      apply OkRestores_obind hrec1
      intro stm hmp hmg
      apply hkont
      · exact hmg
      · show stm.edge_path.erase ek = basePath
        rw [hmp, List.erase_cons_head]

theorem edge_do_restores {cfg : WCfg} {recurse} {kont : WState → Option WRes}
    {rel : Rel} {ek : EdgeKey} {pkc : List Tup} (basePath : List EdgeKey)
    (g : Graph) (F : Nat) (stx : WState)
    (hstx_path : stx.edge_path = ek :: basePath) (hstx_g : stx.graph = g)
    (hmeas : emeasure g (ek :: basePath) < F)
    (hrec : ∀ (t : String) (kc : List String) (ks : List Tup) (sa : WState),
      sa.graph = g → emeasure g sa.edge_path < F →
      OkRestores (recurse t kc ks sa) sa.edge_path g)
    (hkont : ∀ sa : WState, sa.graph = g → sa.edge_path = basePath →
      OkRestores (kont sa) basePath g) :
    OkRestores (edge_do cfg recurse kont rel ek pkc stx) basePath g := by
  unfold edge_do
  split_ifs with hdry
  · cases hcc : cfg.o.count_child rel.name rel.mapping pkc rel.conditions with
    | error e => exact OkRestores_fail
    | ok cnt =>
      dsimp only
      apply OkRestores_prependEv
      exact edge_after_keys_restores basePath g F _ hstx_path hstx_g hmeas hrec hkont
  · exact edge_after_keys_restores basePath g F _ hstx_path hstx_g hmeas hrec hkont

theorem process_edges_restores {cfg : WCfg} {recurse} (g : Graph) (F : Nat)
    (hrec : ∀ (t : String) (kc : List String) (ks : List Tup) (sa : WState),
      sa.graph = g → emeasure g sa.edge_path < F →
      OkRestores (recurse t kc ks sa) sa.edge_path g) :
    ∀ (rels : List Rel) (table : String) (keyCols : List String)
      (keys : List Tup) (st : WState), st.graph = g →
      (∀ r ∈ rels, edge_key_of table r ∈ graphEdgeKeys g) →
      emeasure g st.edge_path ≤ F →
      OkRestores (process_edges cfg recurse table keyCols keys rels st)
        st.edge_path g := by
  intro rels
  induction rels with
  | nil =>
    intro table keyCols keys st hg _ _
    refine ⟨⟨_, rfl⟩, ?_⟩
    intro tr st2 h2
    simp only [process_edges, Option.some.injEq, WRes.ok.injEq] at h2
    rw [← h2.2]
    exact ⟨rfl, hg⟩
  | cons rel rest ih =>
    intro table keyCols keys st hg hkeys hm
    have hkeyr : edge_key_of table rel ∈ graphEdgeKeys g := hkeys rel (by simp)
    have hkeyrest : ∀ r ∈ rest, edge_key_of table r ∈ graphEdgeKeys g :=
      fun r hr => hkeys r (by simp [hr])
    show OkRestores (process_edges cfg recurse table keyCols keys (rel :: rest) st)
      st.edge_path g
    simp only [process_edges]
    by_cases hpath : st.edge_path.contains
        (table, rel.name, rel.mapping.parent_columns, rel.mapping.child_columns) = true
    · rw [if_pos hpath]
      exact OkRestores_prependEv (ih table keyCols keys st hg hkeyrest hm)
    · rw [if_neg hpath]
      have hnotin : (table, rel.name, rel.mapping.parent_columns,
          rel.mapping.child_columns) ∉ st.edge_path := by
        intro hc
        exact hpath (List.elem_iff.mpr hc)
      have hlt : emeasure g
          ((table, rel.name, rel.mapping.parent_columns,
            rel.mapping.child_columns) :: st.edge_path) < F :=
        lt_of_lt_of_le (emeasure_cons_lt hkeyr hnotin) hm
      have hkont : ∀ sa : WState, sa.graph = g → sa.edge_path = st.edge_path →
          OkRestores (process_edges cfg recurse table keyCols keys rest sa)
            st.edge_path g := by
        intro sa hsg hsp
        have := ih table keyCols keys sa hsg hkeyrest (by rw [hsp]; exact hm)
        rw [hsp] at this
        exact this
      by_cases hsub : subset_cols rel.mapping.parent_columns keyCols = true
      · rw [if_pos hsub]
        exact edge_do_restores st.edge_path g F _ rfl hg hlt hrec hkont
      · rw [if_neg (by simp [hsub])]
        cases hfn : cfg.o.fetch_needed table keyCols keys rel.mapping.parent_columns with
        | error e => exact OkRestores_fail
        | ok pkc =>
          dsimp only
          by_cases hpe : pkc.isEmpty = true
          · rw [if_pos hpe]
            apply OkRestores_prependEv
            apply OkRestores_prependEv
            apply hkont
            · exact hg
            · show (((table, rel.name, rel.mapping.parent_columns,
                rel.mapping.child_columns) :: st.edge_path).erase
                  (table, rel.name, rel.mapping.parent_columns,
                    rel.mapping.child_columns)) = st.edge_path
              rw [List.erase_cons_head]
          · rw [if_neg hpe]
            apply OkRestores_prependEv
            exact edge_do_restores st.edge_path g F _ rfl hg hlt hrec hkont

theorem cascade_delete_restores {cfg : WCfg} (hauto : cfg.auto_discover = false) :
    ∀ (fuel : Nat) (table : String) (keyCols : List String) (keys : List Tup)
      (st : WState), emeasure st.graph st.edge_path < fuel →
      OkRestores (cascade_delete cfg fuel table keyCols keys st)
        st.edge_path st.graph := by
  intro fuel
  induction fuel with
  | zero => intro table keyCols keys st hm; omega
  | succ f ih =>
    intro table keyCols keys st hm
    show OkRestores (cascade_delete cfg (f + 1) table keyCols keys st)
      st.edge_path st.graph
    simp only [cascade_delete, hauto, Bool.false_and, Bool.false_eq_true, if_false]
    apply OkRestores_obind
    · apply process_edges_restores st.graph f
      · intro t kc ks sa hsg hsm
        have := ih t kc ks sa (by rw [hsg]; exact hsm)
        rw [hsg] at this
        exact this
      · exact rfl
      · intro r hr
        exact graphGet_edge_keys hr
      · omega
    · intro stm hmp hmg
      have := finish_current_restores cfg table keyCols keys stm
      rw [hmp, hmg] at this
      exact this

/-- **C3.** For every finite relation graph, including self-loops and mutual
parent/child cycles, `cascade_delete` terminates: whenever the fuel exceeds
the number of graph edge keys not already on the path, the walker returns
(rather than running out of fuel), and on normal return `edge_path` is
restored to its pre-call contents.  Moreover a revisited edge identity
`(parent, child, parent_columns, child_columns)` is skipped with a CYCLE
warning and contributes nothing else — so each edge is traversed at most once
per root-to-leaf descent (descending adds its key to `edge_path`, and the
guard refuses keys already present). -/
theorem c3_cycle_safety :
    (∀ (cfg : WCfg), cfg.auto_discover = false →
      ∀ (fuel : Nat) (table : String) (keyCols : List String) (keys : List Tup)
        (st : WState),
        emeasure st.graph st.edge_path < fuel →
        (∃ r, cascade_delete cfg fuel table keyCols keys st = some r) ∧
        (∀ tr st2, cascade_delete cfg fuel table keyCols keys st = some (.ok tr st2) →
          st2.edge_path = st.edge_path)) ∧
    (∀ (cfg : WCfg) (recurse : String → List String → List Tup → WState → Option WRes)
        (table : String) (keyCols : List String) (keys : List Tup) (rel : Rel)
        (rest : List Rel) (st : WState),
      st.edge_path.contains (edge_key_of table rel) = true →
      process_edges cfg recurse table keyCols keys (rel :: rest) st
        = prependEv (Ev.cycleWarn table rel.name)
            (process_edges cfg recurse table keyCols keys rest st)) := by
  constructor
  · intro cfg hauto fuel table keyCols keys st hm
    obtain ⟨hex, hres⟩ := cascade_delete_restores hauto fuel table keyCols keys st hm
    exact ⟨hex, fun tr st2 h => (hres tr st2 h).1⟩
  · intro cfg recurse table keyCols keys rel rest st hpath
    simp only [edge_key_of] at hpath
    simp only [process_edges]
    rw [if_pos hpath]

theorem c3_cycle_safety_witness :
    ∃ r, cascade_delete cfgExec 3 "public.parent" ["id"] [[1], [2]]
      ⟨g0, [], [], [], []⟩ = some r :=
  (c3_cycle_safety.1 cfgExec rfl 3 "public.parent" ["id"] [[1], [2]]
    ⟨g0, [], [], [], []⟩ (by decide)).1


/-! ## Claim C4 -/

/-- A retention configuration for an unqualified table name `events`. -/
def confEvents : TableConf :=
  ⟨"events", ["id"], "created_at", 0, true, 10, 50, false, none, [], false, [],
    false, true⟩

/-- Environment with no overrides, on day 100. -/
def env0 : Env := ⟨none, none, 100⟩

/-- **C4, counterexample.**  The claim says a table whose *short or qualified*
name is in `skip_tables` is never selected; but `clean_table` compares only
the verbatim configured name (`conf["name"] in skip_tables`, line 268).  With
the configured name `events` and `skip_tables = {public.events}` the
qualified name is in the skip set, yet `clean_table` proceeds and issues the
batch `SELECT` against the table. -/
theorem c4_counterexample :
    qualify_table confEvents.name ∈ ["public.events"] ∧
    clean_table o0 env0 confEvents ["public.events"] [] false 5 5
      = some (.ran [BEv.fetchBatchEv
          (fetch_batch_query "public.events" ["id"] "created_at" (some 90) 50 []) 0]) ∧
    clean_table o0 env0 confEvents ["public.events"] [] false 5 5
      ≠ some .skippedFilter := by
  refine ⟨by decide, by decide, by decide⟩

/-- **C4, amended.**  A table whose *configured name, exactly as written*, is
in `skip_tables`, or whose `date_column` is in `skip_columns`, is skipped by
`clean_table` before any database work (outcome `skippedFilter`: no events,
no `delete_totals`); and every relation edge whose child's short or qualified
name is in `skip_tables`, or whose `child_columns` intersect `skip_columns`,
is removed by `filter_relations` and so never reached by the walker. -/
theorem c4_skip_semantics :
    (∀ (o : Oracle) (env : Env) (conf : TableConf) (sT sC : List String)
        (dr : Bool) (wf lf : Nat),
      conf.enable = true →
      (sT.contains conf.name || sC.contains conf.date_column) = true →
      clean_table o env conf sT sC dr wf lf = some .skippedFilter) ∧
    (∀ (rels : List Rel) (sT sC : List String) (r : Rel),
      (r.name ∈ sT ∨ ((r.name.splitOn ".").getLastD r.name) ∈ sT ∨
        ∃ c ∈ r.mapping.child_columns, c ∈ sC) →
      r ∉ filter_relations rels sT sC) := by
  constructor
  · intro o env conf sT sC dr wf lf hen hskip
    unfold clean_table
    rw [hen]
    simp only [Bool.not_true, Bool.false_eq_true, if_false]
    rw [if_pos hskip]
  · intro rels sT sC r hbad hmem
    have hkeep := List.of_mem_filter hmem
    rw [Bool.not_eq_true'] at hkeep
    unfold relSkipped at hkeep
    simp only [Bool.or_eq_false_iff] at hkeep
    obtain ⟨⟨hn, hs⟩, hc⟩ := hkeep
    have hnorm1 : r.name ∉ sT ++ sT.map qualify_table := by simpa using hn
    have hnorm2 : ((r.name.splitOn ".").getLastD r.name) ∉ sT ++ sT.map qualify_table := by
      simpa using hs
    rcases hbad with hb | hb | ⟨c, hcm, hcs⟩
    · exact hnorm1 (List.mem_append_left _ hb)
    · exact hnorm2 (List.mem_append_left _ hb)
    · rw [List.any_eq_false] at hc
      have := hc c hcm
      simp at this
      exact this hcs

/-- Witness for C4: a verbatim-name match is skipped. -/
theorem c4_skip_semantics_witness :
    clean_table o0 env0 confEvents ["events"] [] false 5 5
      = some .skippedFilter :=
  c4_skip_semantics.1 o0 env0 confEvents ["events"] [] false 5 5 rfl (by decide)

end DbClean
